import Mathlib

/-!
# Verification of the tc-cache snapshot engine

Shallow embedding of the snapshot subsystem of the `tc-cache` CI build-cache
tool, translated from the Rust sources:

* `src/snapshot/entry.rs`   — the `Entry`/`Attributes` data model, walker;
* `src/snapshot/diff.rs`    — change detection between two entry lists;
* `src/snapshot/writing.rs` / `pack.rs`   — the archive writer;
* `src/snapshot/reading.rs` / `unpack.rs` — the archive reader;
* `src/bytes.rs`            — little-endian u32 encoding;
* `src/commands/push.rs`    — the push orchestrator;
* `src/storage/mod.rs`, `src/storage/backend/s3.rs` — blob-store keys;
* `src/hashing.rs`          — MD5 content hashing (the `md5` crate's function).

Rust strings and paths are modelled as their UTF-8 byte sequences
(`List Nat`, each element < 256); machine integers are `Nat`/`Int` with
explicit bounds where overflow matters.  The archive is a byte stream
(`List Nat`): the model operates on the stream inside the Snappy frame, as
the wire format does.  Filesystem writes performed by unpack are reified as
a list of `FsAct` actions.
-/

namespace TcCache

/-! ## Data model (`src/snapshot/entry.rs`) -/

/-- POSIX attributes of one filesystem object: `Attributes { mode, atime, mtime }`.
`mode` is a `u32`, the times are `i64` unix-epoch seconds. -/
structure Attributes where
  mode : Nat
  atime : Int
  mtime : Int
deriving DecidableEq, Repr

/-- `impl PartialEq for Attributes`: equality depends only on `mode`. -/
def Attributes.eqMode (a b : Attributes) : Bool :=
  a.mode == b.mode

/-- The `Entry` enum: one record per filesystem object.  `path`, `target` and
`md5` are UTF-8 byte sequences; `len` is a `u32`. -/
inductive Entry where
  | file (path : List Nat) (attr : Attributes) (md5 : List Nat) (len : Nat)
  | symlink (path : List Nat) (target : List Nat) (attr : Attributes)
  | dir (path : List Nat) (attr : Attributes)
deriving DecidableEq, Repr

/-- `Entry::as_path`. -/
def Entry.path : Entry → List Nat
  | .file p _ _ _ => p
  | .symlink p _ _ => p
  | .dir p _ => p

/-- The derived `PartialEq` on `Entry` (with the custom `Attributes` equality):
files compare by path, mode, md5 and len; symlinks by path, target and mode;
dirs by path and mode.  Timestamps never participate. -/
def Entry.eq : Entry → Entry → Bool
  | .file p a m l, .file p' a' m' l' => p == p' && Attributes.eqMode a a' && m == m' && l == l'
  | .symlink p t a, .symlink p' t' a' => p == p' && t == t' && Attributes.eqMode a a'
  | .dir p a, .dir p' a' => p == p' && Attributes.eqMode a a'
  | _, _ => false

/-! ## Paths

A path is its UTF-8 byte sequence.  `Path::starts_with` and the `PathBuf`
ordering used by the walker's sort compare paths component-wise; a component
is a maximal run of bytes between `/` separators (byte 47), and an absolute
path carries a leading root component.  The root component is modelled as the
empty byte list, which no ordinary component can be. -/

/-- Split a byte sequence at `/` bytes (byte 47). -/
def splitSlash : List Nat → List Nat → List (List Nat)
  | [], acc => [acc.reverse]
  | b :: rest, acc =>
    if b = 47 then acc.reverse :: splitSlash rest []
    else splitSlash rest (b :: acc)

/-- The component list of a path, as `std::path::Path::components` produces it
for canonical paths: a root marker when absolute, then the nonempty
components. -/
def pathComponents (p : List Nat) : List (List Nat) :=
  (if p.head? = some 47 then [[]] else []) ++ (splitSlash p []).filter (· ≠ [])

/-- `path.starts_with(base)`: the components of `base` are a prefix of the
components of `path`. -/
def pathStartsWith (base p : List Nat) : Bool :=
  (pathComponents base).isPrefixOf (pathComponents p)

/-- UTF-8 bytes of an ASCII string literal (used for the CBOR field names). -/
def strBytes (s : String) : List Nat :=
  s.toList.map Char.toNat

/-! ## CBOR metadata codec

`serde_cbor` serializes an `Entry` as a CBOR map: the serde tag `_t`
(`"f"`/`"s"`/`"d"`) first, then the variant's fields in declaration order;
`Attributes` nests as a three-entry map.  Unsigned integers use CBOR major
type 0 with minimal-length heads, negative integers major type 1, text
strings major type 3, maps major type 5. -/

/-- CBOR head byte(s) for major type `major` carrying the value/length `n`,
big-endian, minimal length. -/
def encodeHead (major n : Nat) : List Nat :=
  if n < 24 then [major * 32 + n]
  else if n < 256 then [major * 32 + 24, n]
  else if n < 65536 then [major * 32 + 25, n / 256, n % 256]
  else if n < 4294967296 then
    [major * 32 + 26, n / 16777216, n / 65536 % 256, n / 256 % 256, n % 256]
  else
    [major * 32 + 27, n / 72057594037927936, n / 281474976710656 % 256,
     n / 1099511627776 % 256, n / 4294967296 % 256, n / 16777216 % 256,
     n / 65536 % 256, n / 256 % 256, n % 256]

/-- CBOR unsigned integer. -/
def encodeUInt (n : Nat) : List Nat := encodeHead 0 n

/-- CBOR signed integer: non-negative as major 0, negative `i` as major 1
carrying `-1 - i`. -/
def encodeInt (i : Int) : List Nat :=
  if 0 ≤ i then encodeHead 0 i.toNat else encodeHead 1 (-(i + 1)).toNat

/-- CBOR text string from its UTF-8 bytes. -/
def encodeText (bs : List Nat) : List Nat := encodeHead 3 bs.length ++ bs

/-- CBOR encoding of `Attributes` (a three-entry map). -/
def encodeAttr (a : Attributes) : List Nat :=
  encodeHead 5 3 ++
  encodeText (strBytes "mode") ++ encodeUInt a.mode ++
  encodeText (strBytes "atime") ++ encodeInt a.atime ++
  encodeText (strBytes "mtime") ++ encodeInt a.mtime

/-- CBOR encoding of an `Entry` as `serde_cbor::to_vec` produces it. -/
def encodeEntry : Entry → List Nat
  | .file p a m l =>
    encodeHead 5 5 ++
    encodeText (strBytes "_t") ++ encodeText (strBytes "f") ++
    encodeText (strBytes "path") ++ encodeText p ++
    encodeText (strBytes "attr") ++ encodeAttr a ++
    encodeText (strBytes "md5") ++ encodeText m ++
    encodeText (strBytes "len") ++ encodeUInt l
  | .symlink p t a =>
    encodeHead 5 4 ++
    encodeText (strBytes "_t") ++ encodeText (strBytes "s") ++
    encodeText (strBytes "path") ++ encodeText p ++
    encodeText (strBytes "target") ++ encodeText t ++
    encodeText (strBytes "attr") ++ encodeAttr a
  | .dir p a =>
    encodeHead 5 3 ++
    encodeText (strBytes "_t") ++ encodeText (strBytes "d") ++
    encodeText (strBytes "path") ++ encodeText p ++
    encodeText (strBytes "attr") ++ encodeAttr a

/-- Read `k` bytes from the stream, or fail. -/
def readN (k : Nat) (s : List Nat) : Option (List Nat × List Nat) :=
  if k ≤ s.length then some (s.take k, s.drop k) else none

/-- Big-endian value of a byte sequence. -/
def beNat (bs : List Nat) : Nat :=
  bs.foldl (fun acc b => acc * 256 + b) 0

/-- Parse a CBOR head of the expected major type, returning the carried
value/length. -/
def decodeHead (major : Nat) (s : List Nat) : Option (Nat × List Nat) :=
  match s with
  | [] => none
  | b :: rest =>
    if b / 32 = major then
      let info := b % 32
      if info < 24 then some (info, rest)
      else
        let k := if info = 24 then 1 else if info = 25 then 2
                 else if info = 26 then 4 else if info = 27 then 8 else 0
        if k = 0 then none
        else match readN k rest with
          | some (bs, r) => some (beNat bs, r)
          | none => none
    else none

/-- Parse a CBOR text string, yielding its UTF-8 bytes. -/
def decodeText (s : List Nat) : Option (List Nat × List Nat) :=
  match decodeHead 3 s with
  | some (n, r) => readN n r
  | none => none

/-- Parse a CBOR unsigned integer. -/
def decodeUInt (s : List Nat) : Option (Nat × List Nat) := decodeHead 0 s

/-- Parse a CBOR signed integer (major 0 or 1). -/
def decodeInt (s : List Nat) : Option (Int × List Nat) :=
  match s with
  | [] => none
  | b :: _ =>
    if b / 32 = 0 then
      match decodeHead 0 s with
      | some (n, r) => some ((n : Int), r)
      | none => none
    else if b / 32 = 1 then
      match decodeHead 1 s with
      | some (n, r) => some (-1 - (n : Int), r)
      | none => none
    else none

/-- Expect a concrete text string (a field name or tag). -/
def expectText (lit : List Nat) (s : List Nat) : Option (List Nat) :=
  match decodeText s with
  | some (t, r) => if t = lit then some r else none
  | none => none

/-- Parse a CBOR-encoded `Attributes` map. -/
def decodeAttr (s : List Nat) : Option (Attributes × List Nat) := do
  let (n, s) ← decodeHead 5 s
  if n = 3 then
    let s ← expectText (strBytes "mode") s
    let (mode, s) ← decodeUInt s
    let s ← expectText (strBytes "atime") s
    let (atime, s) ← decodeInt s
    let s ← expectText (strBytes "mtime") s
    let (mtime, s) ← decodeInt s
    pure (⟨mode, atime, mtime⟩, s)
  else none

/-- Parse a CBOR-encoded `Entry` (the canonical layout emitted by
`serde_cbor::to_vec`: tag first, fields in declaration order). -/
def decodeEntry (s : List Nat) : Option (Entry × List Nat) := do
  let (n, s) ← decodeHead 5 s
  let s ← expectText (strBytes "_t") s
  let (tag, s) ← decodeText s
  if tag = strBytes "f" then
    if n = 5 then
      let s ← expectText (strBytes "path") s
      let (p, s) ← decodeText s
      let s ← expectText (strBytes "attr") s
      let (a, s) ← decodeAttr s
      let s ← expectText (strBytes "md5") s
      let (m, s) ← decodeText s
      let s ← expectText (strBytes "len") s
      let (l, s) ← decodeUInt s
      pure (.file p a m l, s)
    else none
  else if tag = strBytes "s" then
    if n = 4 then
      let s ← expectText (strBytes "path") s
      let (p, s) ← decodeText s
      let s ← expectText (strBytes "target") s
      let (t, s) ← decodeText s
      let s ← expectText (strBytes "attr") s
      let (a, s) ← decodeAttr s
      pure (.symlink p t a, s)
    else none
  else if tag = strBytes "d" then
    if n = 3 then
      let s ← expectText (strBytes "path") s
      let (p, s) ← decodeText s
      let s ← expectText (strBytes "attr") s
      let (a, s) ← decodeAttr s
      pure (.dir p a, s)
    else none
  else none

/-- `serde_cbor::from_slice::<Entry>`: the whole slice must be consumed. -/
def entryFromSlice (bs : List Nat) : Option Entry :=
  match decodeEntry bs with
  | some (e, []) => some e
  | _ => none

/-! ### Codec roundtrip -/

theorem readN_left (bs r : List Nat) : readN bs.length (bs ++ r) = some (bs, r) := by
  simp [readN]

theorem decodeHead_encodeHead (major n : Nat) (hn : n < 18446744073709551616)
    (r : List Nat) : decodeHead major (encodeHead major n ++ r) = some (n, r) := by
  by_cases h1 : n < 24
  · simp only [encodeHead, if_pos h1, List.cons_append, List.nil_append, decodeHead]
    rw [show (major * 32 + n) / 32 = major by omega, if_pos rfl]
    rw [show (major * 32 + n) % 32 = n by omega, if_pos h1]
  · by_cases h2 : n < 256
    · simp only [encodeHead, if_neg h1, if_pos h2, List.cons_append, List.nil_append, decodeHead]
      rw [show (major * 32 + 24) / 32 = major by omega, if_pos rfl]
      rw [show (major * 32 + 24) % 32 = 24 by omega]
      norm_num [readN, beNat]
    · by_cases h3 : n < 65536
      · simp only [encodeHead, if_neg h1, if_neg h2, if_pos h3, List.cons_append,
          List.nil_append, decodeHead]
        rw [show (major * 32 + 25) / 32 = major by omega, if_pos rfl]
        rw [show (major * 32 + 25) % 32 = 25 by omega]
        norm_num [readN, beNat]
        omega
      · by_cases h4 : n < 4294967296
        · simp only [encodeHead, if_neg h1, if_neg h2, if_neg h3, if_pos h4,
            List.cons_append, List.nil_append, decodeHead]
          rw [show (major * 32 + 26) / 32 = major by omega, if_pos rfl]
          rw [show (major * 32 + 26) % 32 = 26 by omega]
          norm_num [readN, beNat]
          omega
        · simp only [encodeHead, if_neg h1, if_neg h2, if_neg h3, if_neg h4,
            List.cons_append, List.nil_append, decodeHead]
          rw [show (major * 32 + 27) / 32 = major by omega, if_pos rfl]
          rw [show (major * 32 + 27) % 32 = 27 by omega]
          norm_num [readN, beNat]
          omega

theorem encodeHead_cons (major n : Nat) :
    ∃ b rest, encodeHead major n = b :: rest ∧ b / 32 = major := by
  unfold encodeHead
  split_ifs with h1 h2 h3 h4
  · exact ⟨major * 32 + n, _, rfl, by omega⟩
  · exact ⟨major * 32 + 24, _, rfl, by omega⟩
  · exact ⟨major * 32 + 25, _, rfl, by omega⟩
  · exact ⟨major * 32 + 26, _, rfl, by omega⟩
  · exact ⟨major * 32 + 27, _, rfl, by omega⟩

theorem decodeText_encodeText (bs : List Nat) (h : bs.length < 18446744073709551616)
    (r : List Nat) : decodeText (encodeText bs ++ r) = some (bs, r) := by
  unfold decodeText encodeText
  rw [List.append_assoc, decodeHead_encodeHead 3 bs.length h]
  exact readN_left bs r

theorem expectText_encodeText (bs : List Nat) (h : bs.length < 18446744073709551616)
    (r : List Nat) : expectText bs (encodeText bs ++ r) = some r := by
  unfold expectText
  rw [decodeText_encodeText bs h]
  simp

theorem decodeUInt_encodeUInt (n : Nat) (h : n < 18446744073709551616)
    (r : List Nat) : decodeUInt (encodeUInt n ++ r) = some (n, r) :=
  decodeHead_encodeHead 0 n h r

theorem decodeInt_encodeInt (i : Int) (hlo : -18446744073709551616 ≤ i)
    (hhi : i < 18446744073709551616) (r : List Nat) :
    decodeInt (encodeInt i ++ r) = some (i, r) := by
  unfold encodeInt
  by_cases hpos : 0 ≤ i
  · rw [if_pos hpos]
    obtain ⟨b, rest, heq, hdiv⟩ := encodeHead_cons 0 i.toNat
    have heq2 : encodeHead 0 i.toNat ++ r = b :: (rest ++ r) := by rw [heq]; rfl
    rw [heq2]
    simp only [decodeInt, hdiv, if_pos rfl]
    rw [← heq2, decodeHead_encodeHead 0 i.toNat (by omega) r]
    simp [Int.toNat_of_nonneg hpos]
  · rw [if_neg hpos]
    obtain ⟨b, rest, heq, hdiv⟩ := encodeHead_cons 1 (-(i + 1)).toNat
    have heq2 : encodeHead 1 (-(i + 1)).toNat ++ r = b :: (rest ++ r) := by rw [heq]; rfl
    rw [heq2]
    simp only [decodeInt]
    rw [hdiv, if_neg (by norm_num : ¬(1 : Nat) = 0), if_pos rfl]
    rw [← heq2, decodeHead_encodeHead 1 (-(i + 1)).toNat (by omega) r]
    have hi : (-1 - ((-(i + 1)).toNat : Int)) = i := by omega
    exact congrArg (fun z : Int => some (z, r)) hi

/-- Well-formedness of `Attributes` imposed by the Rust types: `mode : u32`,
`atime mtime : i64`. -/
def Attributes.wf (a : Attributes) : Bool :=
  a.mode < 4294967296 &&
  decide (-9223372036854775808 ≤ a.atime) && decide (a.atime < 9223372036854775808) &&
  decide (-9223372036854775808 ≤ a.mtime) && decide (a.mtime < 9223372036854775808)

theorem decodeAttr_encodeAttr (a : Attributes) (h : a.wf = true) (r : List Nat) :
    decodeAttr (encodeAttr a ++ r) = some (a, r) := by
  simp only [Attributes.wf, Bool.and_eq_true, decide_eq_true_eq] at h
  obtain ⟨⟨⟨⟨hm, h1⟩, h2⟩, h3⟩, h4⟩ := h
  unfold decodeAttr encodeAttr
  simp only [List.append_assoc]
  rw [decodeHead_encodeHead 5 3 (by norm_num) _]
  simp only [Option.pure_def, Option.bind_eq_bind, Option.some_bind,
    eq_self_iff_true, if_true]
  rw [expectText_encodeText _ (by decide) _]
  simp only [Option.some_bind]
  rw [decodeUInt_encodeUInt a.mode (by omega) _]
  simp only [Option.some_bind]
  rw [expectText_encodeText _ (by decide) _]
  simp only [Option.some_bind]
  rw [decodeInt_encodeInt a.atime (by omega) (by omega) _]
  simp only [Option.some_bind]
  rw [expectText_encodeText _ (by decide) _]
  simp only [Option.some_bind]
  rw [decodeInt_encodeInt a.mtime (by omega) (by omega) _]
  simp only [Option.some_bind]

/-- Well-formedness of an `Entry` imposed by the Rust types: bounded field
widths, and the metadata record fitting the `u32` length prefix
(`meta.len() as u32` in `Writing::write_entry`). -/
def Entry.wf (e : Entry) : Bool :=
  (match e with
   | .file p a m l => a.wf && p.length < 4294967296 && m.length < 4294967296 &&
       l < 4294967296
   | .symlink p t a => a.wf && p.length < 4294967296 && t.length < 4294967296
   | .dir p a => a.wf && p.length < 4294967296) &&
  (encodeEntry e).length < 4294967296

theorem decodeEntry_encodeEntry (e : Entry) (h : e.wf = true) (r : List Nat) :
    decodeEntry (encodeEntry e ++ r) = some (e, r) := by
  cases e with
  | file p a m l =>
    simp only [Entry.wf, Bool.and_eq_true, decide_eq_true_eq] at h
    obtain ⟨⟨⟨⟨ha, hp⟩, hm⟩, hl⟩, -⟩ := h
    unfold decodeEntry encodeEntry
    simp only [List.append_assoc]
    rw [decodeHead_encodeHead 5 5 (by norm_num) _]
    simp only [Option.pure_def, Option.bind_eq_bind, Option.some_bind]
    rw [expectText_encodeText _ (by decide) _]
    simp only [Option.some_bind]
    rw [decodeText_encodeText _ (by decide) _]
    simp only [Option.some_bind, eq_self_iff_true, if_true]
    rw [expectText_encodeText _ (by decide) _]
    simp only [Option.some_bind]
    rw [decodeText_encodeText p (by omega) _]
    simp only [Option.some_bind]
    rw [expectText_encodeText _ (by decide) _]
    simp only [Option.some_bind]
    rw [decodeAttr_encodeAttr a ha _]
    simp only [Option.some_bind]
    rw [expectText_encodeText _ (by decide) _]
    simp only [Option.some_bind]
    rw [decodeText_encodeText m (by omega) _]
    simp only [Option.some_bind]
    rw [expectText_encodeText _ (by decide) _]
    simp only [Option.some_bind]
    rw [decodeUInt_encodeUInt l (by omega) _]
    simp only [Option.some_bind]
  | symlink p t a =>
    simp only [Entry.wf, Bool.and_eq_true, decide_eq_true_eq] at h
    obtain ⟨⟨⟨ha, hp⟩, ht⟩, -⟩ := h
    unfold decodeEntry encodeEntry
    simp only [List.append_assoc]
    rw [decodeHead_encodeHead 5 4 (by norm_num) _]
    simp only [Option.pure_def, Option.bind_eq_bind, Option.some_bind]
    rw [expectText_encodeText _ (by decide) _]
    simp only [Option.some_bind]
    rw [decodeText_encodeText _ (by decide) _]
    simp only [Option.some_bind]
    simp only [if_true]
    rw [expectText_encodeText _ (by decide) _]
    simp only [Option.some_bind]
    rw [decodeText_encodeText p (by omega) _]
    simp only [Option.some_bind]
    rw [expectText_encodeText _ (by decide) _]
    simp only [Option.some_bind]
    rw [decodeText_encodeText t (by omega) _]
    simp only [Option.some_bind]
    rw [expectText_encodeText _ (by decide) _]
    simp only [Option.some_bind]
    rw [decodeAttr_encodeAttr a ha _]
    simp only [Option.some_bind]
    rw [if_neg (show ¬strBytes "s" = strBytes "f" by decide)]
  | dir p a =>
    simp only [Entry.wf, Bool.and_eq_true, decide_eq_true_eq] at h
    obtain ⟨⟨ha, hp⟩, -⟩ := h
    unfold decodeEntry encodeEntry
    simp only [List.append_assoc]
    rw [decodeHead_encodeHead 5 3 (by norm_num) _]
    simp only [Option.pure_def, Option.bind_eq_bind, Option.some_bind]
    rw [expectText_encodeText _ (by decide) _]
    simp only [Option.some_bind]
    rw [decodeText_encodeText _ (by decide) _]
    simp only [Option.some_bind]
    simp only [if_true]
    rw [expectText_encodeText _ (by decide) _]
    simp only [Option.some_bind]
    rw [decodeText_encodeText p (by omega) _]
    simp only [Option.some_bind]
    rw [expectText_encodeText _ (by decide) _]
    simp only [Option.some_bind]
    rw [decodeAttr_encodeAttr a ha _]
    simp only [Option.some_bind]
    rw [if_neg (show ¬strBytes "d" = strBytes "f" by decide),
      if_neg (show ¬strBytes "d" = strBytes "s" by decide)]

theorem entryFromSlice_encodeEntry (e : Entry) (h : e.wf = true) :
    entryFromSlice (encodeEntry e) = some e := by
  unfold entryFromSlice
  rw [show encodeEntry e = encodeEntry e ++ [] by simp,
    decodeEntry_encodeEntry e h []]

/-! ## Errors (`src/errors.rs`)

Only the error kind and the message/path strings matter to the claims; the
cause chain is dropped. -/

/-- The `Error` kinds raised by the code under verification. -/
inductive Err where
  | ioAt (path : List Nat) (msg : String)
  | snapshot (msg : String)
  | storage (msg : String)
deriving DecidableEq, Repr

/-! ## Little-endian `u32` (`src/bytes.rs`) -/

/-- `IntoLeBytes for u32`: `[b4, b3, b2, b1]` where `b1` is the top byte. -/
def intoLeBytes (n : Nat) : List Nat :=
  [n % 256, n / 256 % 256, n / 65536 % 256, n / 16777216 % 256]

/-- `u32::from_le_bytes` (also `FromLeBytes for u32`). -/
def u32FromLeBytes (b0 b1 b2 b3 : Nat) : Nat :=
  b0 + b1 * 256 + b2 * 65536 + b3 * 16777216

theorem u32FromLeBytes_intoLeBytes (n : Nat) (h : n < 4294967296) :
    u32FromLeBytes (n % 256) (n / 256 % 256) (n / 65536 % 256) (n / 16777216 % 256) = n := by
  unfold u32FromLeBytes
  omega

/-! ## Archive writer (`src/snapshot/writing.rs`, `src/snapshot/pack.rs`)

`Writing::open` writes the version magic; `write_entry` writes the CBOR
metadata behind a little-endian `u32` length; `write_file` copies the file's
first `len` bytes.  The filesystem is a map from path bytes to content
bytes. -/

/-- `VERSION`: the archive magic `A0 F1 B2 01`. -/
def VERSION_BYTES : List Nat := [160, 241, 178, 1]

/-- The bytes `Writing::write_entry` emits: `meta.len() as u32` little-endian,
then the metadata. -/
def writeEntryBytes (e : Entry) : List Nat :=
  intoLeBytes ((encodeEntry e).length % 4294967296) ++ encodeEntry e

/-- The bytes `Writing::write_file` emits: the first `len` bytes of the file.
Reading fails if the file is shorter than `len`; `len = 0` writes nothing.
(The 64 KiB read-buffer/mmap split is a throughput detail with no effect on
the emitted bytes.) -/
def writeFileBytes (fs : List Nat → List Nat) (p : List Nat) (len : Nat) :
    Except Err (List Nat) :=
  if len = 0 then .ok []
  else if (fs p).length < len then .error (.ioAt p "failed to fill whole buffer")
  else .ok ((fs p).take len)

/-- The body `Pack::pack` emits after the magic: per entry the metadata
record, then the payload for `File` entries. -/
def packEntriesGo (fs : List Nat → List Nat) : List Entry → Except Err (List Nat)
  | [] => .ok []
  | e :: rest =>
    match (match e with
           | .file p _ _ len => writeFileBytes fs p len
           | _ => .ok []) with
    | .error err => .error err
    | .ok payload =>
      match packEntriesGo fs rest with
      | .error err => .error err
      | .ok tail => .ok (writeEntryBytes e ++ payload ++ tail)

/-- `Pack::pack` over an already-collected entry list: magic, then the body. -/
def packStream (fs : List Nat → List Nat) (entries : List Entry) :
    Except Err (List Nat) :=
  (packEntriesGo fs entries).map (fun body => VERSION_BYTES ++ body)

/-- The payload bytes of an entry: file contents for a `File`, nothing
otherwise. -/
def payloadBytes (fs : List Nat → List Nat) : Entry → List Nat
  | .file p _ _ len => (fs p).take len
  | _ => []

/-- One entry's span of the archive body. -/
def entryChunk (fs : List Nat → List Nat) (e : Entry) : List Nat :=
  writeEntryBytes e ++ payloadBytes fs e

/-- The archive body for an entry list. -/
def archiveBody (fs : List Nat → List Nat) (entries : List Entry) : List Nat :=
  entries.flatMap (entryChunk fs)

/-- A full archive: magic then body. -/
def archive (fs : List Nat → List Nat) (entries : List Entry) : List Nat :=
  VERSION_BYTES ++ archiveBody fs entries

/-- A `File` entry's recorded `len` matches the file's length on disk (what
the walker guarantees, having built `len` from the same stat). -/
def lensOk (fs : List Nat → List Nat) : Entry → Bool
  | .file p _ _ len => (fs p).length == len
  | _ => true

theorem packEntriesGo_eq_archiveBody (fs : List Nat → List Nat)
    (entries : List Entry) (h : entries.all (lensOk fs) = true) :
    packEntriesGo fs entries = .ok (archiveBody fs entries) := by
  induction entries with
  | nil => rfl
  | cons e rest ih =>
    simp only [List.all_cons, Bool.and_eq_true] at h
    obtain ⟨he, hrest⟩ := h
    cases e with
    | file p a m len =>
      simp only [lensOk, beq_iff_eq] at he
      simp only [packEntriesGo]
      unfold writeFileBytes
      by_cases h0 : len = 0
      · rw [if_pos h0, ih hrest]
        simp [archiveBody, entryChunk, payloadBytes]
        exact Or.inl h0
      · rw [if_neg h0, if_neg (by omega), ih hrest]
        simp [archiveBody, entryChunk, payloadBytes]
    | symlink p t a =>
      simp only [packEntriesGo]
      rw [ih hrest]
      simp [archiveBody, entryChunk, payloadBytes]
    | dir p a =>
      simp only [packEntriesGo]
      rw [ih hrest]
      simp [archiveBody, entryChunk, payloadBytes]

theorem packStream_eq_archive (fs : List Nat → List Nat)
    (entries : List Entry) (h : entries.all (lensOk fs) = true) :
    packStream fs entries = .ok (archive fs entries) := by
  unfold packStream archive
  rw [packEntriesGo_eq_archiveBody fs entries h]
  rfl

/-! ## Archive reader (`src/snapshot/reading.rs`)

The reader is modelled on the decompressed byte stream; `read_exact` on such
a stream fails exactly when fewer bytes remain than requested, and that
failure is `UnexpectedEof`. -/

/-- `Reading::check_version`: consume and validate the 4-byte magic. -/
def check_version (s : List Nat) : Except Err (List Nat) :=
  match s with
  | a :: b :: c :: d :: rest =>
    if [a, b, c, d] = VERSION_BYTES then .ok rest
    else .error (.snapshot "Version header mismatch")
  | _ => .error (.snapshot "Read version header failed")

/-- `Reading::read_entry`: read the 4-byte little-endian `meta_len`
(`UnexpectedEof` here yields `None`), read that many metadata bytes, CBOR
decode.  Returns the entry, the consumed byte count `meta_len + 4`, and the
remaining stream. -/
def read_entry (s : List Nat) : Except Err (Option ((Entry × Nat) × List Nat)) :=
  match s with
  | b0 :: b1 :: b2 :: b3 :: rest =>
    let len := u32FromLeBytes b0 b1 b2 b3
    if rest.length < len then .error (.snapshot "Read entry failed")
    else match entryFromSlice (rest.take len) with
      | some e => .ok (some ((e, len + 4), rest.drop len))
      | none => .error (.snapshot "Read entry failed")
  | _ => .ok none

/-- `Reading::copy_to`: stream `len` bytes to a writer in 64 KiB chunks.
Returns the bytes written and the remaining stream. -/
def copy_to (s : List Nat) (len : Nat) : Except Err (List Nat × List Nat) :=
  if h : len = 0 then .ok ([], s)
  else
    let chunk := min 65536 len
    if s.length < chunk then .error (.snapshot "Copy failed")
    else
      match copy_to (s.drop chunk) (len - chunk) with
      | .ok (w, rest) => .ok (s.take chunk ++ w, rest)
      | .error e => .error e
termination_by len
decreasing_by
  have : 0 < min 65536 len := by omega
  omega

/-- `Reading::skip`: `copy_to` into a null writer; returns the byte count
and the remaining stream. -/
def skip (s : List Nat) (len : Nat) : Except Err (Nat × List Nat) :=
  match copy_to s len with
  | .ok (w, rest) => .ok (w.length, rest)
  | .error e => .error e

theorem copy_to_of_le (len : Nat) : ∀ s : List Nat, len ≤ s.length →
    copy_to s len = .ok (s.take len, s.drop len) := by
  induction len using Nat.strong_induction_on with
  | _ len ih =>
    intro s hle
    rw [copy_to]
    by_cases h0 : len = 0
    · simp [h0]
    · rw [dif_neg h0]
      have hchunk : 0 < min 65536 len := by omega
      rw [if_neg (by omega : ¬s.length < min 65536 len)]
      rw [ih (len - min 65536 len) (by omega) (s.drop (min 65536 len))
        (by simp; omega)]
      have h1 : s.take (min 65536 len) ++ (s.drop (min 65536 len)).take (len - min 65536 len)
          = s.take len := by
        rw [← List.take_add]
        congr 1
        omega
      have h2 : (s.drop (min 65536 len)).drop (len - min 65536 len) = s.drop len := by
        rw [List.drop_drop]
        congr 1
        omega
      show Except.ok
        (s.take (min 65536 len) ++ (s.drop (min 65536 len)).take (len - min 65536 len),
          (s.drop (min 65536 len)).drop (len - min 65536 len)) =
        Except.ok (s.take len, s.drop len)
      rw [h1, h2]

theorem skip_of_le (s : List Nat) (len : Nat) (h : len ≤ s.length) :
    skip s len = .ok ((s.take len).length, s.drop len) := by
  unfold skip
  rw [copy_to_of_le len s h]

theorem read_entry_chunk (e : Entry) (hwf : e.wf = true) (r : List Nat) :
    read_entry (writeEntryBytes e ++ r) =
      .ok (some ((e, (encodeEntry e).length + 4), r)) := by
  have hL : (encodeEntry e).length < 4294967296 := by
    have h := hwf
    unfold Entry.wf at h
    simp only [Bool.and_eq_true, decide_eq_true_eq] at h
    exact h.2
  unfold writeEntryBytes intoLeBytes
  rw [Nat.mod_eq_of_lt hL]
  simp only [List.cons_append, List.nil_append, read_entry]
  rw [u32FromLeBytes_intoLeBytes _ hL]
  rw [if_neg (by simp : ¬(encodeEntry e ++ r).length < (encodeEntry e).length)]
  rw [List.take_left' rfl, List.drop_left' rfl]
  rw [entryFromSlice_encodeEntry e hwf]

/-! ## Unpack (`src/snapshot/unpack.rs`)

Filesystem writes are reified as actions; `unpack` returns the restored
entries, the `read` byte counter, and the actions in execution order. -/

/-- The filesystem effects of unpack, in execution order. -/
inductive FsAct where
  | createDirAll (path : List Nat)
  | restoreAttrs (path : List Nat) (attr : Attributes)
  | symlinkTo (target : List Nat) (path : List Nat)
  | writeFile (path : List Nat) (bytes : List Nat)
deriving DecidableEq, Repr

/-- `prefixed`: with a prefix, strip a leading `/` from the archive path and
join to the prefix (`PathBuf::push` adds a separator unless the prefix is
empty or already ends with one); without a prefix, the archive path as-is. -/
def prefixed (pre : Option (List Nat)) (path : List Nat) : List Nat :=
  match pre with
  | some pfx =>
    let p := if path.head? = some 47 then path.drop 1 else path
    if pfx = [] then p
    else if pfx.getLast? = some 47 then pfx ++ p
    else pfx ++ 47 :: p
  | none => path

/-- `is_include`: some configured root is a path-prefix of the entry's
archive path. -/
def is_include (dirs : List (List Nat)) (path : List Nat) : Bool :=
  dirs.any (fun d => pathStartsWith d path)

/-- The unpack loop (`while let Some((entry, len)) = self.read_entry()?`):
per entry, apply the include filter; excluded `File` payloads are skipped,
included entries are materialized and pushed.  The loop terminates because
every successful `read_entry` consumes at least four stream bytes; that
measure is supplied as explicit fuel (`unpack` passes `s.length + 1`, which
the loop can never exhaust). -/
def unpackGo (pre : Option (List Nat)) (dirs : List (List Nat)) :
    Nat → List Nat → Except Err (List Entry × Nat × List FsAct)
  | 0, _ => .error (.snapshot "Read entry failed")
  | fuel + 1, s =>
    match read_entry s with
    | .error e => .error e
    | .ok none => .ok ([], 0, [])
    | .ok (some ((entry, elen), rest)) =>
      if is_include dirs entry.path then
        match entry with
        | .file p attr md5 flen =>
          match copy_to rest flen with
          | .error e => .error e
          | .ok (bytes, rest') =>
            match unpackGo pre dirs fuel rest' with
            | .error e => .error e
            | .ok (es, n, acts) =>
              .ok (Entry.file p attr md5 flen :: es, elen + bytes.length + n,
                .writeFile (prefixed pre p) bytes ::
                .restoreAttrs (prefixed pre p) attr :: acts)
        | .symlink p t attr =>
          match unpackGo pre dirs fuel rest with
          | .error e => .error e
          | .ok (es, n, acts) =>
            .ok (Entry.symlink p t attr :: es, elen + n,
              .symlinkTo t (prefixed pre p) :: acts)
        | .dir p attr =>
          match unpackGo pre dirs fuel rest with
          | .error e => .error e
          | .ok (es, n, acts) =>
            .ok (Entry.dir p attr :: es, elen + n,
              .createDirAll (prefixed pre p) ::
              .restoreAttrs (prefixed pre p) attr :: acts)
      else
        match entry with
        | .file _ _ _ flen =>
          match skip rest flen with
          | .error e => .error e
          | .ok (_, rest') =>
            match unpackGo pre dirs fuel rest' with
            | .error e => .error e
            | .ok (es, n, acts) => .ok (es, elen + n, acts)
        | _ =>
          match unpackGo pre dirs fuel rest with
          | .error e => .error e
          | .ok (es, n, acts) => .ok (es, elen + n, acts)

/-- `Reading::open` followed by `Unpack::unpack`: check the magic, then run
the loop. -/
def unpack (pre : Option (List Nat)) (dirs : List (List Nat)) (s : List Nat) :
    Except Err (List Entry × Nat × List FsAct) :=
  match check_version s with
  | .ok rest => unpackGo pre dirs (rest.length + 1) rest
  | .error e => .error e

/-- The filesystem actions unpack performs for one archive entry: none when
the entry is excluded by the filter. -/
def actsFor (fs : List Nat → List Nat) (pre : Option (List Nat))
    (dirs : List (List Nat)) (e : Entry) : List FsAct :=
  if is_include dirs e.path then
    match e with
    | .file p a _ len =>
      [.writeFile (prefixed pre p) ((fs p).take len), .restoreAttrs (prefixed pre p) a]
    | .symlink p t _ => [.symlinkTo t (prefixed pre p)]
    | .dir p a => [.createDirAll (prefixed pre p), .restoreAttrs (prefixed pre p) a]
  else []

/-- The contribution of one archive entry to unpack's `read` counter:
`meta_len + 4` always, plus the payload length for an included `File`
(skipped payloads are not counted). -/
def readCount (dirs : List (List Nat)) (e : Entry) : Nat :=
  (encodeEntry e).length + 4 +
  (if is_include dirs e.path then
    match e with
    | .file _ _ _ len => len
    | _ => 0
   else 0)

theorem unpackGo_archiveBody (fs : List Nat → List Nat) (pre : Option (List Nat))
    (dirs : List (List Nat)) (entries : List Entry) :
    ∀ fuel, entries.length < fuel → entries.all Entry.wf = true →
    entries.all (lensOk fs) = true →
    unpackGo pre dirs fuel (archiveBody fs entries) =
      .ok (entries.filter (fun e => is_include dirs e.path),
           (entries.map (readCount dirs)).sum,
           entries.flatMap (actsFor fs pre dirs)) := by
  induction entries with
  | nil =>
    intro fuel hf hwf hlen
    obtain ⟨f, rfl⟩ : ∃ f, fuel = f + 1 := ⟨fuel - 1, by omega⟩
    simp [unpackGo, archiveBody, read_entry]
  | cons e rest ih =>
    intro fuel hf hwf hlen
    obtain ⟨f, rfl⟩ : ∃ f, fuel = f + 1 := ⟨fuel - 1, by omega⟩
    simp only [List.all_cons, Bool.and_eq_true] at hwf hlen
    obtain ⟨hwfe, hwfr⟩ := hwf
    obtain ⟨hlene, hlenr⟩ := hlen
    have ihr := ih f (by simp only [List.length_cons] at hf; omega) hwfr hlenr
    have hchunk := read_entry_chunk e hwfe (payloadBytes fs e ++ archiveBody fs rest)
    have hstream : archiveBody fs (e :: rest) =
        writeEntryBytes e ++ (payloadBytes fs e ++ archiveBody fs rest) := by
      simp [archiveBody, entryChunk]
    rw [hstream]
    cases e with
    | file p a m flen =>
      have hplen : (payloadBytes fs (Entry.file p a m flen)).length = flen := by
        simp only [lensOk, beq_iff_eq] at hlene
        simp [payloadBytes, hlene]
      have htake : (List.take flen (fs p)).length = flen := by
        simpa [payloadBytes] using hplen
      simp only [unpackGo, hchunk, Entry.path]
      by_cases hinc : is_include dirs p = true
      · rw [if_pos hinc]
        rw [copy_to_of_le flen _ (by simp only [List.length_append, hplen]; omega),
          List.take_left' hplen, List.drop_left' hplen]
        simp only []
        rw [ihr]
        simp only [Except.ok.injEq, Prod.mk.injEq]
        refine ⟨?_, ?_, ?_⟩
        · simp [List.filter_cons, Entry.path, hinc]
        · simp only [List.map_cons, List.sum_cons, readCount, Entry.path, hinc,
            eq_self_iff_true, if_true]
          omega
        · simp [List.flatMap_cons, actsFor, Entry.path, hinc, payloadBytes]
      · rw [if_neg hinc]
        rw [skip_of_le _ flen (by simp only [List.length_append, hplen]; omega),
          List.take_left' hplen, List.drop_left' hplen]
        simp only []
        rw [ihr]
        have hincf : is_include dirs p = false := by
          cases hb : is_include dirs p
          · rfl
          · exact absurd hb hinc
        simp only [Except.ok.injEq, Prod.mk.injEq]
        refine ⟨?_, ?_, ?_⟩
        · simp [List.filter_cons, Entry.path, hincf]
        · simp only [List.map_cons, List.sum_cons, readCount, Entry.path, hincf,
            Bool.false_eq_true, if_false]
        · simp [List.flatMap_cons, actsFor, Entry.path, hincf]
    | symlink p t a =>
      have hpay : payloadBytes fs (Entry.symlink p t a) = [] := rfl
      rw [hpay] at hchunk
      rw [List.nil_append] at hchunk
      rw [hpay, List.nil_append]
      simp only [unpackGo, hchunk, Entry.path]
      by_cases hinc : is_include dirs p = true
      · rw [if_pos hinc]
        rw [ihr]
        simp only [Except.ok.injEq, Prod.mk.injEq]
        refine ⟨?_, ?_, ?_⟩
        · simp [List.filter_cons, Entry.path, hinc]
        · simp only [List.map_cons, List.sum_cons, readCount, Entry.path, hinc,
            eq_self_iff_true, if_true]
        · simp [List.flatMap_cons, actsFor, Entry.path, hinc]
      · rw [if_neg hinc]
        rw [ihr]
        have hincf : is_include dirs p = false := by
          cases hb : is_include dirs p
          · rfl
          · exact absurd hb hinc
        simp only [Except.ok.injEq, Prod.mk.injEq]
        refine ⟨?_, ?_, ?_⟩
        · simp [List.filter_cons, Entry.path, hincf]
        · simp only [List.map_cons, List.sum_cons, readCount, Entry.path, hincf,
            Bool.false_eq_true, if_false]
        · simp [List.flatMap_cons, actsFor, Entry.path, hincf]
    | dir p a =>
      have hpay : payloadBytes fs (Entry.dir p a) = [] := rfl
      rw [hpay] at hchunk
      rw [List.nil_append] at hchunk
      rw [hpay, List.nil_append]
      simp only [unpackGo, hchunk, Entry.path]
      by_cases hinc : is_include dirs p = true
      · rw [if_pos hinc]
        rw [ihr]
        simp only [Except.ok.injEq, Prod.mk.injEq]
        refine ⟨?_, ?_, ?_⟩
        · simp [List.filter_cons, Entry.path, hinc]
        · simp only [List.map_cons, List.sum_cons, readCount, Entry.path, hinc,
            eq_self_iff_true, if_true]
        · simp [List.flatMap_cons, actsFor, Entry.path, hinc]
      · rw [if_neg hinc]
        rw [ihr]
        have hincf : is_include dirs p = false := by
          cases hb : is_include dirs p
          · rfl
          · exact absurd hb hinc
        simp only [Except.ok.injEq, Prod.mk.injEq]
        refine ⟨?_, ?_, ?_⟩
        · simp [List.filter_cons, Entry.path, hincf]
        · simp only [List.map_cons, List.sum_cons, readCount, Entry.path, hincf,
            Bool.false_eq_true, if_false]
        · simp [List.flatMap_cons, actsFor, Entry.path, hincf]

theorem length_le_archiveBody (fs : List Nat → List Nat) (entries : List Entry) :
    entries.length ≤ (archiveBody fs entries).length := by
  induction entries with
  | nil => simp [archiveBody]
  | cons e rest ih =>
    have : (entryChunk fs e).length ≥ 1 := by
      simp [entryChunk, writeEntryBytes, intoLeBytes]
    simp only [archiveBody, List.flatMap_cons, List.length_append, List.length_cons] at *
    omega

theorem unpack_archive (fs : List Nat → List Nat) (pre : Option (List Nat))
    (dirs : List (List Nat)) (entries : List Entry)
    (hwf : entries.all Entry.wf = true) (hlen : entries.all (lensOk fs) = true) :
    unpack pre dirs (archive fs entries) =
      .ok (entries.filter (fun e => is_include dirs e.path),
           (entries.map (readCount dirs)).sum,
           entries.flatMap (actsFor fs pre dirs)) := by
  unfold unpack archive
  rw [show check_version (VERSION_BYTES ++ archiveBody fs entries) =
    .ok (archiveBody fs entries) from rfl]
  exact unpackGo_archiveBody fs pre dirs entries ((archiveBody fs entries).length + 1)
    (by have := length_le_archiveBody fs entries; omega) hwf hlen

/-! ## Diff (`src/snapshot/diff.rs`)

`diff` builds a `HashMap` from path to entry for the right-hand list
(insertion overwrites an existing binding), iterates the left-hand list
removing hits, and emits `Changed` for unequal hits, `Removed` for left paths
absent on the right, `Added` for right paths never hit.  The map is modelled
as an association list; the `HashSet` result is modelled as a list — the
claims about it are membership statements. -/

/-- A diff record: `Added(path) | Removed(path) | Changed { left, right }`. -/
inductive Diff where
  | added (path : List Nat)
  | removed (path : List Nat)
  | changed (left : Entry) (right : Entry)
deriving DecidableEq, Repr

/-- `HashMap::insert`: overwrite the binding for `k` if present, else add. -/
def hmInsert (k : List Nat) (v : Entry) (m : List (List Nat × Entry)) :
    List (List Nat × Entry) :=
  if m.any (fun kv => kv.1 = k) then
    m.map (fun kv => if kv.1 = k then (k, v) else kv)
  else m ++ [(k, v)]

/-- The lookup half of `HashMap::remove`. -/
def hmLookup (k : List Nat) (m : List (List Nat × Entry)) : Option Entry :=
  (m.find? (fun kv => kv.1 = k)).map (fun kv => kv.2)

/-- The deletion half of `HashMap::remove`. -/
def hmRemoveKey (k : List Nat) (m : List (List Nat × Entry)) :
    List (List Nat × Entry) :=
  m.filter (fun kv => !(kv.1 = k : Bool))

/-- `right.iter().map(|it| (it.as_ref(), it)).collect::<HashMap<_, _>>()`. -/
def buildMap (right : List Entry) : List (List Nat × Entry) :=
  right.foldl (fun m e => hmInsert e.path e m) []

/-- The loop state of `diff`: the `only_left` path set, the remaining
`only_right` map, and the `differences` set. -/
structure DState where
  onlyLeft : List (List Nat)
  onlyRight : List (List Nat × Entry)
  differences : List Diff
deriving Repr

/-- One iteration of `diff`'s loop over the left-hand entries. -/
def diffStep (st : DState) (entry : Entry) : DState :=
  match hmLookup entry.path st.onlyRight with
  | some rv =>
    if Entry.eq rv entry then
      { st with onlyRight := hmRemoveKey entry.path st.onlyRight }
    else
      { st with onlyRight := hmRemoveKey entry.path st.onlyRight,
                differences := Diff.changed entry rv :: st.differences }
  | none => { st with onlyLeft := entry.path :: st.onlyLeft }

/-- `diff(left, right)`: run the loop, then append `Removed` for `only_left`
and `Added` for the keys remaining in `only_right`. -/
def diffRun (left right : List Entry) : List Diff :=
  let st := left.foldl diffStep ⟨[], buildMap right, []⟩
  st.differences ++ st.onlyLeft.map Diff.removed ++
    st.onlyRight.map (fun kv => Diff.added kv.1)

theorem Entry.eq_refl (e : Entry) : Entry.eq e e = true := by
  cases e <;> simp [Entry.eq, Attributes.eqMode]

theorem hmLookup_removeKey_ne (q k : List Nat) (h : q ≠ k) :
    ∀ m, hmLookup q (hmRemoveKey k m) = hmLookup q m := by
  intro m
  induction m with
  | nil => rfl
  | cons kv rest ih =>
    by_cases hk : kv.1 = k
    · have hq : ¬(decide (kv.1 = q)) = true := by
        simp only [decide_eq_true_eq]
        rw [hk]
        exact fun hh => h hh.symm
      unfold hmRemoveKey hmLookup at *
      rw [List.filter_cons_of_neg (by simp [hk])]
      rw [@List.find?_cons_of_neg _ (fun kv => decide (kv.1 = q)) kv rest hq]
      exact ih
    · unfold hmRemoveKey hmLookup at *
      rw [List.filter_cons_of_pos (by simp [hk])]
      by_cases hq : kv.1 = q
      · rw [@List.find?_cons_of_pos _ (fun kv => decide (kv.1 = q)) kv (List.filter (fun kv => !decide (kv.1 = k)) rest) (by simp [hq]), @List.find?_cons_of_pos _ (fun kv => decide (kv.1 = q)) kv rest (by simp [hq])]
      · rw [@List.find?_cons_of_neg _ (fun kv => decide (kv.1 = q)) kv (List.filter (fun kv => !decide (kv.1 = k)) rest) (by simp [hq]), @List.find?_cons_of_neg _ (fun kv => decide (kv.1 = q)) kv rest (by simp [hq])]
        exact ih

/-- The predicate "this left entry's path misses the map". -/
def missEntry (m : List (List Nat × Entry)) (e : Entry) : Bool :=
  (hmLookup e.path m).isNone

/-- The `Changed` record a left entry produces against the map, if any. -/
def changedOf (m : List (List Nat × Entry)) (e : Entry) : Option Diff :=
  match hmLookup e.path m with
  | some rv => if Entry.eq rv e then none else some (Diff.changed e rv)
  | none => none

theorem diffStep_some_eq (st : DState) (e rv : Entry)
    (hlk : hmLookup e.path st.onlyRight = some rv) (heq : Entry.eq rv e = true) :
    diffStep st e = ⟨st.onlyLeft, hmRemoveKey e.path st.onlyRight, st.differences⟩ := by
  unfold diffStep
  rw [hlk]
  simp only [heq, if_true]

theorem diffStep_some_ne (st : DState) (e rv : Entry)
    (hlk : hmLookup e.path st.onlyRight = some rv) (heq : Entry.eq rv e = false) :
    diffStep st e = ⟨st.onlyLeft, hmRemoveKey e.path st.onlyRight,
      Diff.changed e rv :: st.differences⟩ := by
  unfold diffStep
  rw [hlk]
  simp only [heq, Bool.false_eq_true, if_false]

theorem diffStep_none (st : DState) (e : Entry)
    (hlk : hmLookup e.path st.onlyRight = none) :
    diffStep st e = ⟨e.path :: st.onlyLeft, st.onlyRight, st.differences⟩ := by
  unfold diffStep
  rw [hlk]

theorem foldl_diffStep_closed (left : List Entry) :
    ∀ (m : List (List Nat × Entry)) (olft : List (List Nat)) (diffs : List Diff),
    (left.map Entry.path).Nodup →
    left.foldl diffStep ⟨olft, m, diffs⟩ =
      ⟨((left.filter (missEntry m)).map Entry.path).reverse ++ olft,
       m.filter (fun kv => !(left.any (fun e => e.path = kv.1))),
       (left.filterMap (changedOf m)).reverse ++ diffs⟩ := by
  induction left with
  | nil =>
    intro m olft diffs _
    simp [List.filter_congr, missEntry, changedOf]
  | cons e rest ih =>
    intro m olft diffs hnd
    simp only [List.map_cons, List.nodup_cons, List.mem_map] at hnd
    obtain ⟨hep, hndr⟩ := hnd
    have hne : ∀ e' ∈ rest, e'.path ≠ e.path := by
      intro e' he' hcontra
      exact hep ⟨e', he', hcontra⟩
    rw [List.foldl_cons]
    cases hlk : hmLookup e.path m with
    | some rv =>
      have hlk' : ∀ e' ∈ rest, hmLookup e'.path (hmRemoveKey e.path m) = hmLookup e'.path m := by
        intro e' he'
        exact hmLookup_removeKey_ne e'.path e.path (hne e' he') m
      have h1 : rest.filter (missEntry (hmRemoveKey e.path m)) = rest.filter (missEntry m) := by
        refine List.filter_congr ?_
        intro x hx
        simp [missEntry, hlk' x hx]
      have h2 : rest.filterMap (changedOf (hmRemoveKey e.path m)) =
          rest.filterMap (changedOf m) := by
        refine List.filterMap_congr ?_
        intro x hx
        simp [changedOf, hlk' x hx]
      have h3 : (hmRemoveKey e.path m).filter (fun kv => !(rest.any (fun e => e.path = kv.1))) =
          m.filter (fun kv => !((e :: rest).any (fun e => e.path = kv.1))) := by
        unfold hmRemoveKey
        rw [List.filter_filter]
        refine List.filter_congr ?_
        intro kv _
        simp only [List.any_cons, Bool.not_or, Bool.not_eq_true']
        cases hb : decide (e.path = kv.1)
        · simp only [decide_eq_false_iff_not] at hb
          have hd : (decide (kv.1 = e.path)) = false := by
            simp only [decide_eq_false_iff_not]
            exact fun hh => hb hh.symm
          simp [hd]
        · simp only [decide_eq_true_eq] at hb
          have hd : (decide (kv.1 = e.path)) = true := by simp [hb.symm]
          simp [hd]
      have h4 : (e :: rest).filter (missEntry m) = rest.filter (missEntry m) := by
        rw [List.filter_cons_of_neg]
        simp [missEntry, hlk]
      by_cases heq : Entry.eq rv e = true
      · rw [diffStep_some_eq ⟨olft, m, diffs⟩ e rv hlk heq]
        rw [ih (hmRemoveKey e.path m) olft diffs hndr]
        rw [h1, h2, h3, h4]
        have h5 : (e :: rest).filterMap (changedOf m) = rest.filterMap (changedOf m) := by
          rw [List.filterMap_cons]
          simp [changedOf, hlk, heq]
        rw [h5]
      · have heqf : Entry.eq rv e = false := by
          cases hb : Entry.eq rv e
          · rfl
          · exact absurd hb heq
        rw [diffStep_some_ne ⟨olft, m, diffs⟩ e rv hlk heqf]
        rw [ih (hmRemoveKey e.path m) olft (Diff.changed e rv :: diffs) hndr]
        rw [h1, h2, h3, h4]
        have h5 : (e :: rest).filterMap (changedOf m) =
            Diff.changed e rv :: rest.filterMap (changedOf m) := by
          rw [List.filterMap_cons]
          simp [changedOf, hlk, heqf]
        rw [h5]
        simp
    | none =>
      have hnok : ∀ kv ∈ m, (decide (e.path = kv.1)) = false := by
        intro kv hkv
        simp only [decide_eq_false_iff_not]
        intro hcontra
        unfold hmLookup at hlk
        rw [Option.map_eq_none'] at hlk
        rw [List.find?_eq_none] at hlk
        have hx := hlk kv hkv
        simp only [decide_eq_true_eq] at hx
        exact hx hcontra.symm
      rw [diffStep_none ⟨olft, m, diffs⟩ e hlk]
      rw [ih m (e.path :: olft) diffs hndr]
      have h3 : m.filter (fun kv => !(rest.any (fun e => e.path = kv.1))) =
          m.filter (fun kv => !((e :: rest).any (fun e => e.path = kv.1))) := by
        refine List.filter_congr ?_
        intro kv hkv
        simp [hnok kv hkv]
      have h4 : (e :: rest).filter (missEntry m) = e :: rest.filter (missEntry m) := by
        rw [List.filter_cons_of_pos]
        simp [missEntry, hlk]
      have h5 : (e :: rest).filterMap (changedOf m) = rest.filterMap (changedOf m) := by
        rw [List.filterMap_cons]
        simp [changedOf, hlk]
      rw [h3, h4, h5]
      simp

theorem buildMap_go (right : List Entry) :
    ∀ acc : List (List Nat × Entry),
    (acc.map Prod.fst ++ right.map Entry.path).Nodup →
    right.foldl (fun m e => hmInsert e.path e m) acc =
      acc ++ right.map (fun e => (e.path, e)) := by
  induction right with
  | nil => intro acc _; simp
  | cons e rest ih =>
    intro acc hnd
    have hnotin : e.path ∉ acc.map Prod.fst := by
      simp only [List.map_cons, List.nodup_append, List.nodup_cons] at hnd
      intro hmem
      exact hnd.2.2 hmem (by simp)
    have hany : acc.any (fun kv => kv.1 = e.path) = false := by
      rw [List.any_eq_false]
      intro kv hkv
      simp only [decide_eq_true_eq]
      intro hcontra
      exact hnotin (by exact List.mem_map.mpr ⟨kv, hkv, hcontra⟩)
    rw [List.foldl_cons]
    rw [show hmInsert e.path e acc = acc ++ [(e.path, e)] by
      unfold hmInsert; rw [hany]; simp]
    rw [ih (acc ++ [(e.path, e)]) (by
      simp only [List.map_append, List.map_cons, List.map_nil, List.append_assoc,
        List.nil_append, List.singleton_append]
      simpa using hnd)]
    simp

theorem buildMap_eq (right : List Entry) (hnd : (right.map Entry.path).Nodup) :
    buildMap right = right.map (fun e => (e.path, e)) := by
  unfold buildMap
  rw [buildMap_go right [] (by simpa using hnd)]
  simp

theorem hmLookup_pathPairs_none (right : List Entry) (q : List Nat) :
    hmLookup q (right.map (fun e => (e.path, e))) = none ↔
      q ∉ right.map Entry.path := by
  unfold hmLookup
  rw [Option.map_eq_none', List.find?_eq_none]
  constructor
  · intro h hmem
    obtain ⟨e, he, hpe⟩ := List.mem_map.mp hmem
    have := h (e.path, e) (List.mem_map.mpr ⟨e, he, rfl⟩)
    simp only [decide_eq_true_eq] at this
    exact this hpe
  · intro h kv hkv
    simp only [decide_eq_true_eq]
    intro hcontra
    obtain ⟨e, he, hpe⟩ := List.mem_map.mp hkv
    refine h (List.mem_map.mpr ⟨e, he, ?_⟩)
    rw [← hpe] at hcontra
    exact hcontra

theorem hmLookup_pathPairs_some (right : List Entry) (q : List Nat) (rv : Entry)
    (hnd : (right.map Entry.path).Nodup) :
    hmLookup q (right.map (fun e => (e.path, e))) = some rv ↔
      rv ∈ right ∧ rv.path = q := by
  induction right with
  | nil => simp [hmLookup]
  | cons e rest ih =>
    simp only [List.map_cons, List.nodup_cons, List.mem_map] at hnd
    obtain ⟨hep, hndr⟩ := hnd
    by_cases hq : e.path = q
    · unfold hmLookup
      rw [List.map_cons, List.find?_cons_of_pos _ (by simp [hq])]
      simp only [Option.map_some', Option.some.injEq]
      constructor
      · rintro rfl
        exact ⟨List.mem_cons_self e rest, hq⟩
      · rintro ⟨hmem, hrvq⟩
        rcases List.mem_cons.mp hmem with rfl | hmem
        · rfl
        · exact absurd ⟨rv, hmem, by rw [hrvq, ← hq]⟩ hep
    · unfold hmLookup
      rw [List.map_cons, List.find?_cons_of_neg _ (by simp [hq])]
      rw [show Option.map (fun kv => kv.2)
          (List.find? (fun kv => decide (kv.1 = q)) (rest.map (fun e => (e.path, e)))) =
          hmLookup q (rest.map (fun e => (e.path, e))) from rfl]
      rw [ih hndr]
      constructor
      · rintro ⟨hmem, hrvq⟩
        exact ⟨List.mem_cons_of_mem e hmem, hrvq⟩
      · rintro ⟨hmem, hrvq⟩
        rcases List.mem_cons.mp hmem with rfl | hmem
        · exact absurd (hrvq ▸ hq) (by simp [hrvq])
        · exact ⟨hmem, hrvq⟩

/-- The `Changed` records a diff can contain, characterized. -/
theorem changedOf_eq_some (m : List (List Nat × Entry)) (e : Entry) (d : Diff)
    (h : changedOf m e = some d) :
    ∃ rv, d = Diff.changed e rv ∧ hmLookup e.path m = some rv ∧ Entry.eq rv e = false := by
  unfold changedOf at h
  split at h
  · rename_i rv hlk
    split at h
    · exact absurd h (by simp)
    · rename_i heq
      cases h
      refine ⟨rv, rfl, hlk, ?_⟩
      cases hb : Entry.eq rv e
      · rfl
      · exact absurd hb heq
  · exact absurd h (by simp)

/-- Closed form of `diffRun` under pairwise-distinct paths. -/
theorem diffRun_closed (left right : List Entry)
    (hl : (left.map Entry.path).Nodup) (hr : (right.map Entry.path).Nodup) :
    diffRun left right =
      (left.filterMap (changedOf (right.map (fun e => (e.path, e))))).reverse ++
      (((left.filter (missEntry (right.map (fun e => (e.path, e))))).map Entry.path).reverse).map
        Diff.removed ++
      ((right.map (fun e => (e.path, e))).filter
        (fun kv => !(left.any (fun e => e.path = kv.1)))).map (fun kv => Diff.added kv.1) := by
  unfold diffRun
  rw [buildMap_eq right hr, foldl_diffStep_closed left _ [] [] hl]
  simp

theorem diffRun_removed_mem (left right : List Entry) (q : List Nat)
    (hl : (left.map Entry.path).Nodup) (hr : (right.map Entry.path).Nodup) :
    Diff.removed q ∈ diffRun left right ↔
      q ∈ left.map Entry.path ∧ q ∉ right.map Entry.path := by
  rw [diffRun_closed left right hl hr]
  constructor
  · intro h
    rcases List.mem_append.mp h with h | h
    · rcases List.mem_append.mp h with h | h
      · rw [List.mem_reverse] at h
        obtain ⟨a, -, hfa⟩ := List.mem_filterMap.mp h
        obtain ⟨rv, hd, -, -⟩ := changedOf_eq_some _ a _ hfa
        exact absurd hd.symm (by simp)
      · obtain ⟨x, hx, hxe⟩ := List.mem_map.mp h
        obtain rfl : x = q := by injection hxe
        rw [List.mem_reverse] at hx
        obtain ⟨e, he, hpe⟩ := List.mem_map.mp hx
        obtain ⟨hel, hmiss⟩ := List.mem_filter.mp he
        unfold missEntry at hmiss
        rw [Option.isNone_iff_eq_none, hmLookup_pathPairs_none] at hmiss
        refine ⟨List.mem_map.mpr ⟨e, hel, hpe⟩, ?_⟩
        rw [← hpe]
        exact hmiss
    · obtain ⟨kv, -, hkve⟩ := List.mem_map.mp h
      exact absurd hkve.symm (by simp)
  · rintro ⟨hql, hqr⟩
    obtain ⟨e, hel, hpe⟩ := List.mem_map.mp hql
    refine List.mem_append.mpr (Or.inl (List.mem_append.mpr (Or.inr ?_)))
    refine List.mem_map.mpr ⟨q, ?_, rfl⟩
    rw [List.mem_reverse]
    refine List.mem_map.mpr ⟨e, ?_, hpe⟩
    refine List.mem_filter.mpr ⟨hel, ?_⟩
    unfold missEntry
    rw [Option.isNone_iff_eq_none, hmLookup_pathPairs_none, hpe]
    exact hqr

theorem diffRun_added_mem (left right : List Entry) (q : List Nat)
    (hl : (left.map Entry.path).Nodup) (hr : (right.map Entry.path).Nodup) :
    Diff.added q ∈ diffRun left right ↔
      q ∈ right.map Entry.path ∧ q ∉ left.map Entry.path := by
  rw [diffRun_closed left right hl hr]
  constructor
  · intro h
    rcases List.mem_append.mp h with h | h
    · rcases List.mem_append.mp h with h | h
      · rw [List.mem_reverse] at h
        obtain ⟨a, -, hfa⟩ := List.mem_filterMap.mp h
        obtain ⟨rv, hd, -, -⟩ := changedOf_eq_some _ a _ hfa
        exact absurd hd.symm (by simp)
      · obtain ⟨x, -, hxe⟩ := List.mem_map.mp h
        exact absurd hxe.symm (by simp)
    · obtain ⟨kv, hkv, hkve⟩ := List.mem_map.mp h
      obtain rfl : kv.1 = q := by injection hkve
      obtain ⟨hkvm, hany⟩ := List.mem_filter.mp hkv
      obtain ⟨e, he, hpe⟩ := List.mem_map.mp hkvm
      refine ⟨List.mem_map.mpr ⟨e, he, by exact congrArg Prod.fst hpe⟩, ?_⟩
      intro hmem
      obtain ⟨e', he', hpe'⟩ := List.mem_map.mp hmem
      simp only [Bool.not_eq_true', List.any_eq_false, decide_eq_true_eq] at hany
      exact hany e' he' hpe'
  · rintro ⟨hqr, hql⟩
    obtain ⟨e, her, hpe⟩ := List.mem_map.mp hqr
    refine List.mem_append.mpr (Or.inr ?_)
    refine List.mem_map.mpr ⟨(e.path, e), ?_, by rw [hpe]⟩
    refine List.mem_filter.mpr ⟨List.mem_map.mpr ⟨e, her, rfl⟩, ?_⟩
    simp only [Bool.not_eq_true', List.any_eq_false, decide_eq_true_eq]
    intro e' he' hpe'
    exact hql (List.mem_map.mpr ⟨e', he', by rw [hpe', hpe]⟩)

theorem diffRun_changed_mem (left right : List Entry) (a b : Entry)
    (hl : (left.map Entry.path).Nodup) (hr : (right.map Entry.path).Nodup) :
    Diff.changed a b ∈ diffRun left right ↔
      a ∈ left ∧ b ∈ right ∧ b.path = a.path ∧ Entry.eq b a = false := by
  rw [diffRun_closed left right hl hr]
  constructor
  · intro h
    rcases List.mem_append.mp h with h | h
    · rcases List.mem_append.mp h with h | h
      · rw [List.mem_reverse] at h
        obtain ⟨e, hel, hfa⟩ := List.mem_filterMap.mp h
        obtain ⟨rv, hd, hlk, heq⟩ := changedOf_eq_some _ e _ hfa
        have he : e = a := by injection hd.symm
        have hrv : rv = b := by injection hd.symm
        subst he
        subst hrv
        rw [hmLookup_pathPairs_some right _ _ hr] at hlk
        exact ⟨hel, hlk.1, hlk.2, heq⟩
      · obtain ⟨x, -, hxe⟩ := List.mem_map.mp h
        exact absurd hxe.symm (by simp)
    · obtain ⟨kv, -, hkve⟩ := List.mem_map.mp h
      exact absurd hkve.symm (by simp)
  · rintro ⟨hal, hbr, hpath, heq⟩
    refine List.mem_append.mpr (Or.inl (List.mem_append.mpr (Or.inl ?_)))
    rw [List.mem_reverse]
    refine List.mem_filterMap.mpr ⟨a, hal, ?_⟩
    unfold changedOf
    rw [show hmLookup a.path (right.map (fun e => (e.path, e))) = some b from
      (hmLookup_pathPairs_some right a.path b hr).mpr ⟨hbr, hpath⟩]
    simp [heq]

theorem diffRun_self (E : List Entry) (hnd : (E.map Entry.path).Nodup) :
    diffRun E E = [] := by
  rw [diffRun_closed E E hnd hnd]
  have hlk : ∀ e ∈ E, hmLookup e.path (E.map (fun e => (e.path, e))) = some e := by
    intro e he
    exact (hmLookup_pathPairs_some E e.path e hnd).mpr ⟨he, rfl⟩
  have h1 : E.filterMap (changedOf (E.map (fun e => (e.path, e)))) = [] := by
    rw [List.filterMap_eq_nil]
    intro e he
    unfold changedOf
    rw [hlk e he]
    simp [Entry.eq_refl]
  have h2 : E.filter (missEntry (E.map (fun e => (e.path, e)))) = [] := by
    rw [List.filter_eq_nil]
    intro e he
    unfold missEntry
    rw [hlk e he]
    simp
  have h3 : (E.map (fun e => (e.path, e))).filter
      (fun kv => !(E.any (fun e => e.path = kv.1))) = [] := by
    rw [List.filter_eq_nil]
    intro kv hkv
    obtain ⟨e, he, hpe⟩ := List.mem_map.mp hkv
    cases hpe
    simp only [Bool.not_eq_true', Bool.not_eq_false, List.any_eq_true,
      decide_eq_true_eq]
    exact ⟨e, he, rfl⟩
  rw [h1, h2, h3]
  simp

theorem diffRun_changed_eq_false (left right : List Entry) (a b : Entry)
    (h : Diff.changed a b ∈ diffRun left right) : Entry.eq b a = false := by
  have inv : ∀ (l : List Entry) (st : DState),
      (∀ x y, Diff.changed x y ∈ st.differences → Entry.eq y x = false) →
      (∀ x y, Diff.changed x y ∈ (l.foldl diffStep st).differences →
        Entry.eq y x = false) := by
    intro l
    induction l with
    | nil => intro st hst; exact hst
    | cons e rest ih =>
      intro st hst x y hmem
      refine ih (diffStep st e) ?_ x y hmem
      intro x' y' hm'
      unfold diffStep at hm'
      split at hm'
      · rename_i rv hlk
        split at hm'
        · exact hst x' y' hm'
        · rename_i heq
          simp only [List.mem_cons] at hm'
          rcases hm' with hm' | hm'
          · obtain ⟨hx, hy⟩ : x' = e ∧ y' = rv := by
              cases hm'
              exact ⟨rfl, rfl⟩
            subst hx
            subst hy
            cases hb : Entry.eq y' x'
            · rfl
            · exact absurd hb heq
          · exact hst x' y' hm'
      · exact hst x' y' hm'
  unfold diffRun at h
  simp only [List.mem_append] at h
  rcases h with (h | h) | h
  · exact inv left ⟨[], buildMap right, []⟩ (by simp) a b h
  · obtain ⟨x, -, hx⟩ := List.mem_map.mp h
    exact absurd hx (by simp)
  · obtain ⟨kv, -, hkv⟩ := List.mem_map.mp h
    exact absurd hkv (by simp)

/-! ## MD5 (`src/hashing.rs`, the `md5` crate)

`hashing::md5::file` / `md5::bytes` hash file contents and render the digest
as a lowercase hex string.  The algorithm below is RFC 1321 MD5 over the byte
sequence; 32-bit words are `Nat` with explicit `% 2^32`.  (Whether the bytes
are fed from a stack buffer or a memory map does not affect the digest.) -/

/-- Combine two 32-bit words bitwise with `f` acting on single bits. -/
def bitZip (f : Nat → Nat → Nat) : Nat → Nat → Nat → Nat
  | 0, _, _ => 0
  | k + 1, x, y => f (x % 2) (y % 2) + 2 * bitZip f k (x / 2) (y / 2)

def land32 (x y : Nat) : Nat := bitZip (fun a b => a * b) 32 x y

def lor32 (x y : Nat) : Nat := bitZip (fun a b => a + b - a * b) 32 x y

def lxor32 (x y : Nat) : Nat := bitZip (fun a b => (a + b) % 2) 32 x y

def lnot32 (x : Nat) : Nat := 4294967295 - x % 4294967296

/-- 32-bit left rotation. -/
def rotl32 (x s : Nat) : Nat :=
  (x % 4294967296 * 2 ^ s + x % 4294967296 / 2 ^ (32 - s)) % 4294967296

/-- The per-round sine-derived constants of RFC 1321. -/
def md5K : List Nat :=
  [3614090360, 3905402710, 606105819, 3250441966,
   4118548399, 1200080426, 2821735955, 4249261313,
   1770035416, 2336552879, 4294925233, 2304563134,
   1804603682, 4254626195, 2792965006, 1236535329,
   4129170786, 3225465664, 643717713, 3921069994,
   3593408605, 38016083, 3634488961, 3889429448,
   568446438, 3275163606, 4107603335, 1163531501,
   2850285829, 4243563512, 1735328473, 2368359562,
   4294588738, 2272392833, 1839030562, 4259657740,
   2763975236, 1272893353, 4139469664, 3200236656,
   681279174, 3936430074, 3572445317, 76029189,
   3654602809, 3873151461, 530742520, 3299628645,
   4096336452, 1126891415, 2878612391, 4237533241,
   1700485571, 2399980690, 4293915773, 2240044497,
   1873313359, 4264355552, 2734768916, 1309151649,
   4149444226, 3174756917, 718787259, 3951481745]

/-- The per-round left-rotation amounts of RFC 1321. -/
def md5S : List Nat :=
  [7, 12, 17, 22, 7, 12, 17, 22, 7, 12, 17, 22, 7, 12, 17, 22,
   5, 9, 14, 20, 5, 9, 14, 20, 5, 9, 14, 20, 5, 9, 14, 20,
   4, 11, 16, 23, 4, 11, 16, 23, 4, 11, 16, 23, 4, 11, 16, 23,
   6, 10, 15, 21, 6, 10, 15, 21, 6, 10, 15, 21, 6, 10, 15, 21]

/-- One MD5 round: update the `(a, b, c, d)` state with message word block
`M` at round `i`. -/
def md5Round (M : List Nat) (st : Nat × Nat × Nat × Nat) (i : Nat) :
    Nat × Nat × Nat × Nat :=
  let a := st.1
  let b := st.2.1
  let c := st.2.2.1
  let d := st.2.2.2
  let f := if i < 16 then lor32 (land32 b c) (land32 (lnot32 b) d)
    else if i < 32 then lor32 (land32 d b) (land32 (lnot32 d) c)
    else if i < 48 then lxor32 b (lxor32 c d)
    else lxor32 c (lor32 b (lnot32 d))
  let g := if i < 16 then i
    else if i < 32 then (5 * i + 1) % 16
    else if i < 48 then (3 * i + 5) % 16
    else (7 * i) % 16
  let tmp := (a + f + md5K.getD i 0 + M.getD g 0) % 4294967296
  ((st.2.2.2 : Nat), (b + rotl32 tmp (md5S.getD i 0)) % 4294967296, b, c)

/-- Process one 16-word block. -/
def md5Block (st : Nat × Nat × Nat × Nat) (M : List Nat) :
    Nat × Nat × Nat × Nat :=
  let r := (List.range 64).foldl (md5Round M) st
  ((st.1 + r.1) % 4294967296, (st.2.1 + r.2.1) % 4294967296,
   (st.2.2.1 + r.2.2.1) % 4294967296, (st.2.2.2 + r.2.2.2) % 4294967296)

/-- Little-endian 32-bit words from a padded byte sequence. -/
def toWords : List Nat → List Nat
  | a :: b :: c :: d :: rest => (a + 256 * b + 65536 * c + 16777216 * d) :: toWords rest
  | _ => []

/-- Split the word sequence into 16-word blocks. -/
def toBlocks : List Nat → List (List Nat)
  | w0 :: w1 :: w2 :: w3 :: w4 :: w5 :: w6 :: w7 ::
    w8 :: w9 :: w10 :: w11 :: w12 :: w13 :: w14 :: w15 :: rest =>
    [w0, w1, w2, w3, w4, w5, w6, w7, w8, w9, w10, w11, w12, w13, w14, w15] ::
      toBlocks rest
  | _ => []

/-- Little-endian 64-bit byte rendering of the bit length. -/
def le8 (n : Nat) : List Nat :=
  [n % 256, n / 256 % 256, n / 65536 % 256, n / 16777216 % 256,
   n / 4294967296 % 256, n / 1099511627776 % 256,
   n / 281474976710656 % 256, n / 72057594037927936 % 256]

/-- One lowercase hex digit. -/
def hexDigit (n : Nat) : Nat := if n < 10 then 48 + n else 87 + n

/-- Two hex digits of one byte. -/
def hexByte (b : Nat) : List Nat := [hexDigit (b / 16), hexDigit (b % 16)]

/-- Hex rendering of one 32-bit word, little-endian byte order. -/
def hexWordLe (w : Nat) : List Nat :=
  hexByte (w % 256) ++ hexByte (w / 256 % 256) ++
  hexByte (w / 65536 % 256) ++ hexByte (w / 16777216 % 256)

/-- MD5 of a byte sequence, rendered as the 32-character lowercase hex string
(as ASCII bytes) that `hex::encode` produces. -/
def md5Hex (msg : List Nat) : List Nat :=
  let padded := msg ++ [128] ++ List.replicate ((119 - msg.length % 64) % 64) 0 ++
    le8 ((8 * msg.length) % 18446744073709551616)
  let blocks := toBlocks (toWords padded)
  let r := blocks.foldl md5Block (1732584193, 4023233417, 2562383102, 271733878)
  hexWordLe r.1 ++ hexWordLe r.2.1 ++ hexWordLe r.2.2.1 ++ hexWordLe r.2.2.2

set_option maxRecDepth 100000 in
/-- Scenario check from the test suite: the one-byte file containing `"a"`
hashes to `0cc175b9c0f1b6a831c399e269772661`. -/
theorem md5Hex_test_vector :
    md5Hex (strBytes "a") = strBytes "0cc175b9c0f1b6a831c399e269772661" := by decide

/-! ## Entry construction (`Entry::file`, `Entry::try_from_path`)

`Entry::file` converts the `usize` length with `try_into::<u32>()` and wraps
a failure as an `Io` error at the path; the error's message is the standard
`TryFromIntError` text.  `Entry::try_from_path` calls it with the stat'd file
length and the content hash. -/

/-- `Entry::file`. -/
def entryFile (path : List Nat) (attr : Attributes) (md5 : List Nat) (len : Nat) :
    Except Err Entry :=
  if len < 4294967296 then .ok (.file path attr md5 len)
  else .error (.ioAt path "out of range integral type conversion attempted")

/-- The regular-file branch of `Entry::try_from_path`: hash the contents,
then build the entry from the stat'd length. -/
def tryFromPathFile (path : List Nat) (attr : Attributes) (contents : List Nat) :
    Except Err Entry :=
  entryFile path attr (md5Hex contents) contents.length

/-! ## Blob-store keys (`src/storage/mod.rs`, `src/storage/backend/s3.rs`) -/

/-- `Storage::key_prefixed` (and the identical `S3::key_prefixed`):
`format!("{}/{}", prefix, key)` under a configured prefix, the bare key
otherwise. -/
def key_prefixed (kpre : Option (List Nat)) (key : List Nat) : List Nat :=
  match kpre with
  | some val => val ++ [47] ++ key
  | none => key

/-- `storage::file_name`: the path's final component, or a `Storage` error
when the path has none (root, or a path ending in `..` or `.`). -/
def file_name (path : List Nat) : Except Err (List Nat) :=
  match ((splitSlash path []).filter (· ≠ [])).getLast? with
  | some c =>
    if c = strBytes ".." ∨ c = strBytes "." then
      .error (.storage "Empty file name")
    else .ok c
  | none => .error (.storage "Empty file name")

/-- The object key `Storage::download` passes to the backend:
`self.key_prefixed(file_name(path))`. -/
def downloadRequestKey (kpre : Option (List Nat)) (path : List Nat) :
    Except Err (List Nat) :=
  match file_name path with
  | .ok name => .ok (key_prefixed kpre name)
  | .error e => .error e

/-- The object key `Storage::upload` passes to the backend — the same
composition. -/
def uploadRequestKey (kpre : Option (List Nat)) (path : List Nat) :
    Except Err (List Nat) :=
  match file_name path with
  | .ok name => .ok (key_prefixed kpre name)
  | .error e => .error e

/-- The key the S3 driver puts in its Get/Upload requests: its own
URI-path prefix applied on top of the request key (`S3::key_prefixed`). -/
def s3WireKey (s3pre : Option (List Nat)) (reqKey : List Nat) : List Nat :=
  key_prefixed s3pre reqKey

/-! ## Push orchestrator (`src/commands/push.rs`)

`Push::run` is modelled as a function of its inputs: the cached-dirs list
read from `cached_dirs.json`, the previous entries from
`cached_entries.json`, the freshly walked current entries, the outcome of
building the snapshot (`Writing::open` + `pack` + stat, collapsed into one
fallible step yielding the file length), whether a remote backend is
configured (`remote.is_empty()`), and the outcome of the upload.  The log
calls are reified as events so that the discarded upload error remains
observable. -/

inductive PushEvent where
  | warnNoCachedDirs
  | warnNoPrevious
  | infoNoChanges
  | infoChangesDetected
  | infoCreatingSnapshot
  | infoUploadAttempt
  | errorUploadFailed
deriving DecidableEq, Repr

/-- `detect_changes`: `false` with a "No changes detected" log on an empty
diff, `true` otherwise (the verbose flag only changes the text logged). -/
def detect_changes (diff : List Diff) (verbose : Bool) : Bool × List PushEvent :=
  match diff with
  | [] => (false, [.infoNoChanges])
  | _ :: _ =>
    let _ := verbose
    (true, [.infoChangesDetected])

/-- `Push::run`. -/
def pushRun (cachedDirs : List (List Nat)) (previousEntries currentEntries : List Entry)
    (packResult : Except Err Nat) (remoteEmpty : Bool) (uploadResult : Except Err Unit)
    (verbose : Bool) :
    Except Err (List (List Nat) × Option Nat) × List PushEvent :=
  if cachedDirs.isEmpty then (.ok (cachedDirs, none), [.warnNoCachedDirs])
  else
    let cd : Bool × List PushEvent :=
      if previousEntries.isEmpty then (true, [.warnNoPrevious])
      else detect_changes (diffRun previousEntries currentEntries) verbose
    if cd.1 = false then (.ok (cachedDirs, none), cd.2)
    else
      match packResult with
      | .error e => (.error e, cd.2 ++ [.infoCreatingSnapshot])
      | .ok len =>
        let uploadEvents : List PushEvent :=
          if remoteEmpty then []
          else
            match uploadResult with
            | .ok _ => [.infoUploadAttempt]
            | .error _ => [.infoUploadAttempt, .errorUploadFailed]
        (.ok (cachedDirs, some len), cd.2 ++ [.infoCreatingSnapshot] ++ uploadEvents)

/-! ## Walker (`Entry::walk_into_vec`, `pack::read_entries`)

The walker enumerates each root's subtree without following symlinks and
sorts the concatenated results by path (`sort_by_key` on `PathBuf`, whose
ordering compares component lists).  The filesystem is an abstract list of
entries; a root reaches exactly the entries whose path it
component-prefixes.  Walking the roots in sequence concatenates their
subtrees — nothing deduplicates across roots. -/

/-- The entries `WalkDir::new(dir)` yields on the model filesystem. -/
def walkOne (fsEntries : List Entry) (dir : List Nat) : List Entry :=
  fsEntries.filter (fun e => pathStartsWith dir e.path)

/-- The `PathBuf` sort key order: lexicographic on component lists. -/
def entryPathLe (a b : Entry) : Prop :=
  pathComponents a.path ≤ pathComponents b.path

instance : DecidableRel entryPathLe := fun a b =>
  inferInstanceAs (Decidable (pathComponents a.path ≤ pathComponents b.path))

instance : IsTotal Entry entryPathLe :=
  ⟨fun a b => le_total (pathComponents a.path) (pathComponents b.path)⟩

instance : IsTrans Entry entryPathLe :=
  ⟨fun _ _ _ hab hbc => le_trans hab hbc⟩

/-- `Entry::walk_into_vec` (and `pack::read_entries`, which concatenates
per-root walks the same way): walk every root, concatenate, sort by path. -/
def walk_into_vec (fsEntries : List Entry) (dirs : List (List Nat)) : List Entry :=
  List.insertionSort entryPathLe (dirs.flatMap (walkOne fsEntries))

/-! ## Claims -/

/-- **C7.** File size cap: a regular file longer than `2^32 - 1` bytes makes
entry construction at walk time fail with an `Io` error at the path whose
message mentions "out of range"; any length up to `2^32 - 1` yields a `File`
entry recording exactly that length. -/
theorem claim_C7 (path : List Nat) (attr : Attributes) (contents : List Nat) :
    (contents.length > 4294967295 →
      ∃ msg, tryFromPathFile path attr contents = .error (.ioAt path msg) ∧
        ∃ pre post, msg = pre ++ "out of range" ++ post) ∧
    (contents.length ≤ 4294967295 →
      tryFromPathFile path attr contents =
        .ok (.file path attr (md5Hex contents) contents.length)) := by
  constructor
  · intro h
    refine ⟨"out of range integral type conversion attempted", ?_, "",
      " integral type conversion attempted", rfl⟩
    unfold tryFromPathFile entryFile
    rw [if_neg (by omega)]
  · intro h
    unfold tryFromPathFile entryFile
    rw [if_pos (by omega)]

theorem claim_C7_witness :
    ((List.replicate 4294967296 0).length > 4294967295 ∧
      ∃ msg, tryFromPathFile (strBytes "/big") ⟨420, 0, 0⟩ (List.replicate 4294967296 0)
          = .error (.ioAt (strBytes "/big") msg) ∧
        ∃ pre post, msg = pre ++ "out of range" ++ post) ∧
    tryFromPathFile (strBytes "/a.txt") ⟨420, 0, 0⟩ [] =
      .ok (.file (strBytes "/a.txt") ⟨420, 0, 0⟩ (md5Hex []) 0) := by
  refine ⟨⟨?_, ?_⟩, ?_⟩
  · rw [List.length_replicate]
    omega
  · exact (claim_C7 (strBytes "/big") ⟨420, 0, 0⟩ (List.replicate 4294967296 0)).1
      (by rw [List.length_replicate]; omega)
  · exact (claim_C7 (strBytes "/a.txt") ⟨420, 0, 0⟩ []).2 (by simp)

/-- **C9.** Blob-store key composition: both `Storage::download` and
`Storage::upload` use the key `{key_prefix}/{file_name}` when a key prefix is
configured and `file_name` alone when none is; the S3 driver additionally
namespaces the request key by the bucket-URI path the same way, which is the
identity when the URI has no path. -/
theorem claim_C9 (kpre : Option (List Nat)) (path name : List Nat)
    (h : file_name path = .ok name) :
    downloadRequestKey kpre path = uploadRequestKey kpre path ∧
    (∀ val, kpre = some val → downloadRequestKey kpre path = .ok (val ++ [47] ++ name)) ∧
    (kpre = none → downloadRequestKey kpre path = .ok name) ∧
    (∀ key, s3WireKey none key = key) := by
  refine ⟨rfl, ?_, ?_, fun key => rfl⟩
  · rintro val rfl
    unfold downloadRequestKey
    rw [h]
    rfl
  · rintro rfl
    unfold downloadRequestKey
    rw [h]
    rfl

theorem claim_C9_witness :
    file_name (strBytes "/root/.tc-cache/snapshot.snappy") = .ok (strBytes "snapshot.snappy") ∧
    downloadRequestKey (some (strBytes "Project1")) (strBytes "/root/.tc-cache/snapshot.snappy")
      = .ok (strBytes "Project1" ++ [47] ++ strBytes "snapshot.snappy") ∧
    downloadRequestKey none (strBytes "/root/.tc-cache/snapshot.snappy")
      = .ok (strBytes "snapshot.snappy") := by
  refine ⟨by rfl, ?_, ?_⟩
  · exact (claim_C9 (some (strBytes "Project1")) _ _ (by rfl)).2.1 _ rfl
  · exact (claim_C9 none _ _ (by rfl)).2.2.1 rfl

/-- **C6** (counterexample to the claim as stated): a stream truncated inside
the 4-byte `meta_len` field — two bytes remain — makes `read_entry` return
`None` rather than raise a `Snapshot` error. -/
theorem claim_C6_counterexample :
    read_entry [0, 0] = .ok none ∧
      read_entry [0, 0] ≠ .error (.snapshot "Read entry failed") ∧
      read_entry [0, 0] ≠ .error (.snapshot "Read entry size failed") := by
  refine ⟨rfl, ?_, ?_⟩ <;> intro h <;> cases h

/-- **C6** (amended): `read_entry` returns `None` exactly when fewer than
four bytes remain (clean EOF and truncation inside the length field are not
distinguished); a stream shorter than the announced metadata length, or a
metadata slice that fails CBOR decoding, raises a `Snapshot` error. -/
theorem claim_C6 (s : List Nat) :
    (read_entry s = .ok none ↔ s.length < 4) ∧
    (∀ b0 b1 b2 b3 rest, s = b0 :: b1 :: b2 :: b3 :: rest →
      ((rest.length < u32FromLeBytes b0 b1 b2 b3 →
        read_entry s = .error (.snapshot "Read entry failed")) ∧
       (¬rest.length < u32FromLeBytes b0 b1 b2 b3 →
        entryFromSlice (rest.take (u32FromLeBytes b0 b1 b2 b3)) = none →
        read_entry s = .error (.snapshot "Read entry failed")))) := by
  constructor
  · rcases s with - | ⟨b0, s⟩
    · simp [read_entry]
    · rcases s with - | ⟨b1, s⟩
      · simp [read_entry]
      · rcases s with - | ⟨b2, s⟩
        · simp [read_entry]
        · rcases s with - | ⟨b3, rest⟩
          · simp [read_entry]
          · constructor
            · intro h
              exfalso
              simp only [read_entry] at h
              split at h
              · exact absurd h (by simp)
              · split at h
                · exact absurd h (by simp)
                · exact absurd h (by simp)
            · intro h
              simp only [List.length_cons] at h
              omega
  · rintro b0 b1 b2 b3 rest rfl
    constructor
    · intro h
      simp only [read_entry]
      rw [if_pos h]
    · intro h hdec
      simp only [read_entry]
      rw [if_neg h, hdec]

theorem claim_C6_witness :
    (read_entry [5, 0, 0, 0] = .ok none ↔ ([] : List Nat).length + 4 < 4) ∧
    read_entry [5, 0, 0, 0] = .error (.snapshot "Read entry failed") := by
  constructor
  · simpa using (claim_C6 [5, 0, 0, 0]).1
  · exact ((claim_C6 [5, 0, 0, 0]).2 5 0 0 0 [] rfl).1 (by decide)

/-- **C2.** Push rebuilds exactly when the previous entry list is empty or
the diff is non-empty: with cached dirs present, a non-empty previous list
and an empty diff end the run successfully with no snapshot length, "No
changes detected" logged, and the result independent of the pack step;
otherwise the run packs and reports the new snapshot's length. -/
theorem claim_C2 (cachedDirs : List (List Nat))
    (previousEntries currentEntries : List Entry) (packResult : Except Err Nat)
    (remoteEmpty : Bool) (uploadResult : Except Err Unit) (verbose : Bool)
    (hne : cachedDirs ≠ []) :
    (previousEntries ≠ [] ∧ diffRun previousEntries currentEntries = [] →
      pushRun cachedDirs previousEntries currentEntries packResult remoteEmpty
          uploadResult verbose
        = (.ok (cachedDirs, none), [.infoNoChanges]) ∧
      (∀ pr1 pr2 : Except Err Nat,
        pushRun cachedDirs previousEntries currentEntries pr1 remoteEmpty
            uploadResult verbose =
          pushRun cachedDirs previousEntries currentEntries pr2 remoteEmpty
            uploadResult verbose)) ∧
    (previousEntries = [] ∨ diffRun previousEntries currentEntries ≠ [] →
      (pushRun cachedDirs previousEntries currentEntries packResult remoteEmpty
          uploadResult verbose).1
        = packResult.map (fun len => (cachedDirs, some len))) := by
  have hde : cachedDirs.isEmpty = false := by
    cases cachedDirs
    · exact absurd rfl hne
    · rfl
  constructor
  · rintro ⟨hprev, hdiff⟩
    have hpe : previousEntries.isEmpty = false := by
      cases previousEntries
      · exact absurd rfl hprev
      · rfl
    have hrun : ∀ pr : Except Err Nat,
        pushRun cachedDirs previousEntries currentEntries pr remoteEmpty
          uploadResult verbose = (.ok (cachedDirs, none), [.infoNoChanges]) := by
      intro pr
      unfold pushRun
      rw [hde, hdiff, hpe]
      rfl
    exact ⟨hrun packResult, fun pr1 pr2 => by rw [hrun pr1, hrun pr2]⟩
  · intro hbuild
    unfold pushRun
    rw [hde]
    simp only [Bool.false_eq_true, if_false]
    have hcd : (if previousEntries.isEmpty = true then (true, [PushEvent.warnNoPrevious])
        else detect_changes (diffRun previousEntries currentEntries) verbose).1 = true := by
      rcases hbuild with hprev | hdiff
      · subst hprev
        rfl
      · cases hp : previousEntries.isEmpty
        · simp only [Bool.false_eq_true, if_false]
          cases hd : diffRun previousEntries currentEntries
          · exact absurd hd hdiff
          · rfl
        · rfl
    rw [if_neg (by rw [hcd]; exact fun hcontra => by cases hcontra)]
    cases packResult
    · rfl
    · rfl

theorem claim_C2_witness :
    (pushRun [strBytes "/a"] [] [] (.ok 5) true (.ok ()) false).1 =
      (Except.ok 5).map (fun len => ([strBytes "/a"], some len)) ∧
    pushRun [strBytes "/a"] [Entry.dir (strBytes "/a") ⟨493, 0, 0⟩]
        [Entry.dir (strBytes "/a") ⟨493, 7, 8⟩] (.ok 5) true (.ok ()) false
      = (.ok ([strBytes "/a"], none), [.infoNoChanges]) := by
  constructor
  · exact (claim_C2 [strBytes "/a"] [] [] (.ok 5) true (.ok ()) false
      (by simp)).2 (Or.inl rfl)
  · exact ((claim_C2 [strBytes "/a"] [Entry.dir (strBytes "/a") ⟨493, 0, 0⟩]
      [Entry.dir (strBytes "/a") ⟨493, 7, 8⟩] (.ok 5) true (.ok ()) false
      (by simp)).1 ⟨by simp, by rfl⟩).1

/-- **C8.** Upload failure is non-fatal to push: when the snapshot is built
successfully, the run returns success with the cached dirs and snapshot
length regardless of the upload outcome, the returned value is unchanged by
that outcome, and a failed upload is logged. -/
theorem claim_C8 (cachedDirs : List (List Nat))
    (previousEntries currentEntries : List Entry) (len : Nat)
    (remoteEmpty : Bool) (uploadResult : Except Err Unit) (verbose : Bool)
    (hne : cachedDirs ≠ [])
    (hbuild : previousEntries = [] ∨ diffRun previousEntries currentEntries ≠ []) :
    ((pushRun cachedDirs previousEntries currentEntries (.ok len) remoteEmpty
        uploadResult verbose).1 = .ok (cachedDirs, some len)) ∧
    (∀ u1 u2 : Except Err Unit,
      (pushRun cachedDirs previousEntries currentEntries (.ok len) remoteEmpty
          u1 verbose).1 =
      (pushRun cachedDirs previousEntries currentEntries (.ok len) remoteEmpty
          u2 verbose).1) ∧
    (∀ err, remoteEmpty = false → uploadResult = .error err →
      PushEvent.errorUploadFailed ∈
        (pushRun cachedDirs previousEntries currentEntries (.ok len) remoteEmpty
          uploadResult verbose).2) := by
  have hde : cachedDirs.isEmpty = false := by
    cases cachedDirs
    · exact absurd rfl hne
    · rfl
  have hcd : (if previousEntries.isEmpty = true then (true, [PushEvent.warnNoPrevious])
      else detect_changes (diffRun previousEntries currentEntries) verbose).1 = true := by
    rcases hbuild with hprev | hdiff
    · subst hprev
      rfl
    · cases hp : previousEntries.isEmpty
      · simp only [Bool.false_eq_true, if_false]
        cases hd : diffRun previousEntries currentEntries
        · exact absurd hd hdiff
        · rfl
      · rfl
  have hrun : ∀ u : Except Err Unit,
      (pushRun cachedDirs previousEntries currentEntries (.ok len) remoteEmpty
        u verbose).1 = .ok (cachedDirs, some len) := by
    intro u
    unfold pushRun
    rw [hde]
    simp only [Bool.false_eq_true, if_false]
    rw [if_neg (by rw [hcd]; exact fun hcontra => by cases hcontra)]
  refine ⟨hrun uploadResult, fun u1 u2 => by rw [hrun u1, hrun u2], ?_⟩
  rintro err hre rfl
  unfold pushRun
  rw [hde]
  simp only [Bool.false_eq_true, if_false]
  rw [if_neg (by rw [hcd]; exact fun hcontra => by cases hcontra)]
  rw [hre]
  simp

theorem claim_C8_witness :
    (pushRun [strBytes "/a"] [] [] (.ok 9) false (.error (.storage "boom")) false).1
      = .ok ([strBytes "/a"], some 9) ∧
    PushEvent.errorUploadFailed ∈
      (pushRun [strBytes "/a"] [] [] (.ok 9) false (.error (.storage "boom")) false).2 := by
  constructor
  · exact (claim_C8 [strBytes "/a"] [] [] 9 false (.error (.storage "boom")) false
      (by simp) (Or.inl rfl)).1
  · exact (claim_C8 [strBytes "/a"] [] [] 9 false (.error (.storage "boom")) false
      (by simp) (Or.inl rfl)).2.2 (.storage "boom") rfl rfl

/-- **C3.** Diff characterization: for entry lists whose paths are pairwise
distinct within each list, `diff` contains exactly `Removed` for left-only
paths, `Added` for right-only paths, and `Changed` for shared paths whose
entries are unequal; and `diff(E, E)` is empty for every such `E`. -/
theorem claim_C3 (left right : List Entry)
    (hl : (left.map Entry.path).Nodup) (hr : (right.map Entry.path).Nodup) :
    (∀ q, Diff.removed q ∈ diffRun left right ↔
      q ∈ left.map Entry.path ∧ q ∉ right.map Entry.path) ∧
    (∀ q, Diff.added q ∈ diffRun left right ↔
      q ∈ right.map Entry.path ∧ q ∉ left.map Entry.path) ∧
    (∀ a b, Diff.changed a b ∈ diffRun left right ↔
      a ∈ left ∧ b ∈ right ∧ b.path = a.path ∧ Entry.eq b a = false) ∧
    (∀ E : List Entry, (E.map Entry.path).Nodup → diffRun E E = []) :=
  ⟨fun q => diffRun_removed_mem left right q hl hr,
   fun q => diffRun_added_mem left right q hl hr,
   fun a b => diffRun_changed_mem left right a b hl hr,
   fun E hE => diffRun_self E hE⟩

theorem claim_C3_witness :
    Diff.removed (strBytes "/a") ∈
      diffRun [Entry.dir (strBytes "/a") ⟨493, 0, 0⟩] [] ∧
    diffRun [Entry.dir (strBytes "/a") ⟨493, 0, 0⟩]
      [Entry.dir (strBytes "/a") ⟨493, 0, 0⟩] = [] := by
  constructor
  · exact ((claim_C3 [Entry.dir (strBytes "/a") ⟨493, 0, 0⟩] [] (by simp) (by simp)).1
      (strBytes "/a")).mpr (by simp [Entry.path])
  · exact (claim_C3 [Entry.dir (strBytes "/a") ⟨493, 0, 0⟩] [] (by simp) (by simp)).2.2.2
      [Entry.dir (strBytes "/a") ⟨493, 0, 0⟩] (by simp)

/-- **C4.** Entry equality ignores timestamps: same-variant entries agreeing
on path and mode (and md5/len for files, target for symlinks) compare equal
whatever their atime/mtime, and entries that compare equal never produce a
`Changed` record in `diff`. -/
theorem claim_C4 :
    (∀ (p : List Nat) (mode : Nat) (a1 t1 a2 t2 : Int) (m : List Nat) (l : Nat),
      Entry.eq (.file p ⟨mode, a1, t1⟩ m l) (.file p ⟨mode, a2, t2⟩ m l) = true) ∧
    (∀ (p t : List Nat) (mode : Nat) (a1 t1 a2 t2 : Int),
      Entry.eq (.symlink p t ⟨mode, a1, t1⟩) (.symlink p t ⟨mode, a2, t2⟩) = true) ∧
    (∀ (p : List Nat) (mode : Nat) (a1 t1 a2 t2 : Int),
      Entry.eq (.dir p ⟨mode, a1, t1⟩) (.dir p ⟨mode, a2, t2⟩) = true) ∧
    (∀ (left right : List Entry) (a b : Entry), Entry.eq b a = true →
      Diff.changed a b ∉ diffRun left right) := by
  refine ⟨?_, ?_, ?_, ?_⟩
  · intro p mode a1 t1 a2 t2 m l
    simp [Entry.eq, Attributes.eqMode]
  · intro p t mode a1 t1 a2 t2
    simp [Entry.eq, Attributes.eqMode]
  · intro p mode a1 t1 a2 t2
    simp [Entry.eq, Attributes.eqMode]
  · intro left right a b heq hmem
    rw [diffRun_changed_eq_false left right a b hmem] at heq
    cases heq

theorem claim_C4_witness :
    Diff.changed (Entry.file (strBytes "/a") ⟨420, 1, 2⟩ (strBytes "aa") 1)
        (Entry.file (strBytes "/a") ⟨420, 3, 4⟩ (strBytes "aa") 1) ∉
      diffRun [Entry.file (strBytes "/a") ⟨420, 1, 2⟩ (strBytes "aa") 1]
        [Entry.file (strBytes "/a") ⟨420, 3, 4⟩ (strBytes "aa") 1] :=
  claim_C4.2.2.2 _ _ _ _ (by decide)

/-- **C5.** Unpack include filter: unpacking an archive with roots `dirs`
succeeds and returns exactly the entries whose archive path has some root as
a path prefix; the filesystem actions are exactly those of the included
entries (an excluded entry — its `File` payload skipped over — contributes
none), and the `read` counter accumulates every metadata record plus the
payload of every included file. -/
theorem claim_C5 (fs : List Nat → List Nat) (pre : Option (List Nat))
    (dirs : List (List Nat)) (entries : List Entry)
    (hwf : entries.all Entry.wf = true) (hlen : entries.all (lensOk fs) = true) :
    unpack pre dirs (archive fs entries) =
      .ok (entries.filter (fun e => is_include dirs e.path),
           (entries.map (readCount dirs)).sum,
           entries.flatMap (actsFor fs pre dirs)) :=
  unpack_archive fs pre dirs entries hwf hlen

theorem claim_C5_witness :
    unpack none [strBytes "/a"]
        (archive (fun _ => [])
          [Entry.dir (strBytes "/a") ⟨493, 0, 0⟩,
           Entry.file (strBytes "/b/f") ⟨420, 0, 0⟩ (strBytes "d4") 0]) =
      .ok ([Entry.dir (strBytes "/a") ⟨493, 0, 0⟩,
            Entry.file (strBytes "/b/f") ⟨420, 0, 0⟩ (strBytes "d4") 0].filter
              (fun e => is_include [strBytes "/a"] e.path),
           ([Entry.dir (strBytes "/a") ⟨493, 0, 0⟩,
             Entry.file (strBytes "/b/f") ⟨420, 0, 0⟩ (strBytes "d4") 0].map
               (readCount [strBytes "/a"])).sum,
           [Entry.dir (strBytes "/a") ⟨493, 0, 0⟩,
            Entry.file (strBytes "/b/f") ⟨420, 0, 0⟩ (strBytes "d4") 0].flatMap
              (actsFor (fun _ => []) none [strBytes "/a"])) :=
  claim_C5 (fun _ => []) none [strBytes "/a"]
    [Entry.dir (strBytes "/a") ⟨493, 0, 0⟩,
     Entry.file (strBytes "/b/f") ⟨420, 0, 0⟩ (strBytes "d4") 0]
    (by decide) (by decide)

/-- **C1.** Pack/unpack round-trip: every entry written by pack whose path
passes the unpack root filter comes back as an entry equal to it under the
`PartialEq` relation (path, mode, md5/len for files, target for symlinks),
and for a `File` entry the restored bytes hash to the entry's md5. -/
theorem claim_C1 (fs : List Nat → List Nat) (dirs : List (List Nat))
    (entries : List Entry) (e : Entry)
    (hwf : entries.all Entry.wf = true) (hlen : entries.all (lensOk fs) = true)
    (he : e ∈ entries) (hinc : is_include dirs e.path = true)
    (hmd5 : ∀ p a m l, e = .file p a m l → m = md5Hex (fs p)) :
    ∃ es n acts, unpack none dirs (archive fs entries) = .ok (es, n, acts) ∧
      (∃ e' ∈ es, Entry.eq e' e = true) ∧
      (∀ p a m l, e = .file p a m l →
        ∃ bytes, FsAct.writeFile (prefixed none p) bytes ∈ acts ∧
          md5Hex bytes = m) := by
  refine ⟨entries.filter (fun e => is_include dirs e.path),
    (entries.map (readCount dirs)).sum,
    entries.flatMap (actsFor fs none dirs),
    unpack_archive fs none dirs entries hwf hlen, ?_, ?_⟩
  · exact ⟨e, List.mem_filter.mpr ⟨he, hinc⟩, Entry.eq_refl e⟩
  · rintro p a m l rfl
    have hfl : (fs p).length = l := by
      have hall := List.all_eq_true.mp hlen _ he
      simpa [lensOk] using hall
    refine ⟨(fs p).take l, ?_, ?_⟩
    · refine List.mem_flatMap.mpr ⟨Entry.file p a m l, he, ?_⟩
      unfold actsFor
      rw [show Entry.path (Entry.file p a m l) = p from rfl] at hinc
      rw [show is_include dirs (Entry.file p a m l).path = is_include dirs p from rfl,
        hinc]
      simp
    · rw [← hfl, List.take_length]
      exact (hmd5 p a m l rfl).symm

theorem claim_C1_witness :
    ∃ es n acts,
      unpack none [strBytes "/a"]
          (archive (fun _ => [])
            [Entry.file (strBytes "/a/f") ⟨420, 0, 0⟩ (md5Hex []) 0]) =
        .ok (es, n, acts) ∧
      (∃ e' ∈ es,
        Entry.eq e' (Entry.file (strBytes "/a/f") ⟨420, 0, 0⟩ (md5Hex []) 0) = true) ∧
      (∀ p a m l,
        Entry.file (strBytes "/a/f") ⟨420, 0, 0⟩ (md5Hex []) 0 = Entry.file p a m l →
        ∃ bytes, FsAct.writeFile (prefixed none p) bytes ∈ acts ∧
          md5Hex bytes = m) := by
  refine claim_C1 (fun _ => []) [strBytes "/a"]
    [Entry.file (strBytes "/a/f") ⟨420, 0, 0⟩ (md5Hex []) 0]
    (Entry.file (strBytes "/a/f") ⟨420, 0, 0⟩ (md5Hex []) 0)
    (by decide) (by decide) (by simp) (by decide) ?_
  rintro p a m l h
  cases h
  rfl

theorem count_walkOne (fsEntries : List Entry) (d : List Nat) (e : Entry)
    (hnd : (fsEntries.map Entry.path).Nodup) (he : e ∈ fsEntries) :
    (walkOne fsEntries d).count e =
      if pathStartsWith d e.path = true then 1 else 0 := by
  unfold walkOne
  by_cases hs : pathStartsWith d e.path = true
  · rw [if_pos hs,
      @List.count_filter Entry _ _ (fun e => pathStartsWith d e.path) e fsEntries hs]
    exact List.count_eq_one_of_mem (List.Nodup.of_map Entry.path hnd) he
  · rw [if_neg hs]
    rw [List.count_eq_zero]
    intro hmem
    exact hs (List.mem_filter.mp hmem).2

theorem count_flatMap_walkOne (fsEntries : List Entry) (e : Entry)
    (hnd : (fsEntries.map Entry.path).Nodup) (he : e ∈ fsEntries) :
    ∀ dirs : List (List Nat),
    (dirs.flatMap (walkOne fsEntries)).count e =
      (dirs.filter (fun d => pathStartsWith d e.path)).length := by
  intro dirs
  induction dirs with
  | nil => rfl
  | cons d rest ih =>
    rw [List.flatMap_cons, List.count_append, ih,
      count_walkOne fsEntries d e hnd he, List.filter_cons]
    by_cases hs : pathStartsWith d e.path = true
    · rw [if_pos hs, if_pos hs]
      simp only [List.length_cons]
      omega
    · rw [if_neg hs, if_neg hs]
      simp

/-- **C10.** The walker does not deduplicate across overlapping roots: an
entry occurs in the sorted `walk_into_vec` output once per root that covers
its path (so twice or more when one root contains another), the output is
sorted by the `PathBuf` path order, and `pack` emits one
metadata-plus-payload chunk per occurrence of the entry in that list. -/
theorem claim_C10 (fsEntries : List Entry) (dirs : List (List Nat)) (e : Entry)
    (hnd : (fsEntries.map Entry.path).Nodup) (he : e ∈ fsEntries) :
    (walk_into_vec fsEntries dirs).count e =
      (dirs.filter (fun d => pathStartsWith d e.path)).length ∧
    List.Sorted entryPathLe (walk_into_vec fsEntries dirs) ∧
    (∀ fs : List Nat → List Nat,
      (walk_into_vec fsEntries dirs).all (lensOk fs) = true →
      packEntriesGo fs (walk_into_vec fsEntries dirs) =
        .ok ((walk_into_vec fsEntries dirs).flatMap (entryChunk fs))) := by
  refine ⟨?_, ?_, ?_⟩
  · unfold walk_into_vec
    rw [(List.perm_insertionSort entryPathLe (dirs.flatMap (walkOne fsEntries))).count_eq e]
    exact count_flatMap_walkOne fsEntries e hnd he dirs
  · exact List.sorted_insertionSort entryPathLe (dirs.flatMap (walkOne fsEntries))
  · intro fs hall
    exact packEntriesGo_eq_archiveBody fs (walk_into_vec fsEntries dirs) hall

theorem claim_C10_witness :
    (walk_into_vec
        [Entry.dir (strBytes "/a") ⟨493, 0, 0⟩,
         Entry.file (strBytes "/a/f") ⟨420, 0, 0⟩ (strBytes "aa") 0]
        [strBytes "/a", strBytes "/a/f"]).count
      (Entry.file (strBytes "/a/f") ⟨420, 0, 0⟩ (strBytes "aa") 0) =
      ([strBytes "/a", strBytes "/a/f"].filter
        (fun d => pathStartsWith d
          (Entry.file (strBytes "/a/f") ⟨420, 0, 0⟩ (strBytes "aa") 0).path)).length ∧
    List.Sorted entryPathLe
      (walk_into_vec
        [Entry.dir (strBytes "/a") ⟨493, 0, 0⟩,
         Entry.file (strBytes "/a/f") ⟨420, 0, 0⟩ (strBytes "aa") 0]
        [strBytes "/a", strBytes "/a/f"]) := by
  have h := claim_C10
    [Entry.dir (strBytes "/a") ⟨493, 0, 0⟩,
     Entry.file (strBytes "/a/f") ⟨420, 0, 0⟩ (strBytes "aa") 0]
    [strBytes "/a", strBytes "/a/f"]
    (Entry.file (strBytes "/a/f") ⟨420, 0, 0⟩ (strBytes "aa") 0)
    (by decide) (by simp)
  exact ⟨h.1, h.2.1⟩

end TcCache